import Mathlib

/-!
Verification development for the openclaw-mini agent runtime.

This file gives a shallow embedding, in Lean 4, of the parts of the
TypeScript sources that the verified properties talk about:

* `src/session-tool-result-guard.ts` — the tool-result guard wrapped around
  `SessionManager.append` (namespace `Guard`);
* `src/agent-loop.ts` — the tool-execution / steering segment and the
  context-overflow handler of `runAgentLoop` (namespace `Loop`);
* `src/context/pruning.ts` — the three-layer context pruning pipeline
  (namespace `Prune`);
* `src/session.ts` — session entries, persistence effects and
  `buildSessionContext` (namespace `Sess`);
* `src/session-write-lock.ts` — the cross-process write lock (namespace
  `Lock`).

Pure functions of the source become Lean functions; stateful code becomes
explicit state passing; filesystem writes become an explicit effect datum.
Machine numbers are `Nat` / `Int` / `Rat` (the TS code never overflows in the
regimes the properties quantify over). Each definition mirrors one source
function and keeps its name where Lean allows it.
-/

namespace OCMini

/-- Role of a message, `Message.role` in `src/session.ts`. -/
inductive Role where
  | user
  | assistant
deriving DecidableEq, Repr

/-- One content block, `ContentBlock` in `src/session.ts`. The TS record has
optional fields discriminated by `type`; we use a sum. A TS `tool_use` block
whose `id` is absent/empty is modelled by `id = ""` (falsy in the TS guards);
likewise for a `tool_result` block's `tool_use_id`. The opaque `input` map of
a `tool_use` block is modelled by its serialized text. -/
inductive CBlock where
  | text (text : String)
  | toolUse (id : String) (name : String) (input : String)
  | toolResult (toolUseId : String) (name : Option String) (content : String)
deriving DecidableEq, Repr

/-- Message content: plain text or a block list (`Message.content`). -/
inductive MsgContent where
  | str (s : String)
  | blocks (bs : List CBlock)
deriving DecidableEq, Repr

/-- A conversation message, `Message` in `src/session.ts`. -/
structure Message where
  role : Role
  content : MsgContent
  timestamp : Nat
deriving DecidableEq, Repr

namespace Guard

/-- Extraction of tool calls from an assistant message,
`extractToolUsesFromAssistant` in `src/session-tool-result-guard.ts`:
`tool_use` blocks with a truthy `id`, as `(id, name)` pairs. -/
def extractToolUsesFromAssistant (msg : Message) : List (String × String) :=
  match msg.role, msg.content with
  | .assistant, .blocks bs =>
      bs.filterMap fun b =>
        match b with
        | .toolUse id name _ => if id ≠ "" then some (id, name) else none
        | _ => none
  | _, _ => []

/-- Extraction of `tool_result` ids from a user message,
`extractToolResultIds` in `src/session-tool-result-guard.ts`. -/
def extractToolResultIds (msg : Message) : List String :=
  match msg.role, msg.content with
  | .user, .blocks bs =>
      bs.filterMap fun b =>
        match b with
        | .toolResult tid _ _ => if tid ≠ "" then some tid else none
        | _ => none
  | _, _ => []

/-- Synthetic placeholder block, `makeMissingToolResult` in
`src/session-tool-result-guard.ts`. -/
def makeMissingToolResult (toolCallId : String) (toolName : Option String) : CBlock :=
  .toolResult toolCallId toolName
    "[openclaw-mini] missing tool result in session history; inserted synthetic error result for transcript repair."

/-- The per-session `pending` map of the guard: a JS `Map` keyed by tool-use
id, holding the optional tool name; insertion order is significant. -/
abbrev Pending := List (String × String)

/-- JS `Map.delete` on the pending map. -/
def pendingDelete (p : Pending) (id : String) : Pending :=
  p.filter fun kv => kv.1 ≠ id

/-- JS `Map.set` on the pending map: update in place if the key exists,
else append. -/
def pendingSet (p : Pending) (id name : String) : Pending :=
  if p.any fun kv => kv.1 = id then
    p.map fun kv => if kv.1 = id then (id, name) else kv
  else
    p ++ [(id, name)]

/-- Keys of the pending map, in insertion order. -/
def pendingKeys (p : Pending) : List String := p.map Prod.fst

/-- Guard state for one session: the pending map and the messages persisted
so far through `originalAppend` (the session log, in order). -/
structure GuardState where
  pending : Pending
  log : List Message
deriving DecidableEq, Repr

/-- Initial guard state: empty pending map, empty log. -/
def initGuardState : GuardState := ⟨[], []⟩

/-- Flush of the pending map, `flushPendingToolResults` in
`src/session-tool-result-guard.ts`: if any pending ids remain, persist a
single user message holding one synthetic `tool_result` per pending id (in
insertion order) and clear the map. `now` is the `Date.now()` timestamp. -/
def flushPendingToolResults (st : GuardState) (now : Nat) : GuardState :=
  if st.pending.isEmpty then st
  else
    { pending := []
      log := st.log ++
        [{ role := .user
           content := .blocks (st.pending.map fun kv => makeMissingToolResult kv.1 (some kv.2))
           timestamp := now }] }

/-- The guarded `append` installed by `installSessionToolResultGuard`:
1. a user message carrying `tool_result` blocks clears the matching pending
   ids and is persisted directly;
2. otherwise, a non-empty pending map is flushed first (both `if` branches of
   the source are kept: the second can only fire if the first did not);
3. the message is persisted and any `tool_use` ids it carries are recorded. -/
def guardAppend (st : GuardState) (msg : Message) (now : Nat) : GuardState :=
  let resultIds := extractToolResultIds msg
  if resultIds ≠ [] then
    { pending := resultIds.foldl pendingDelete st.pending
      log := st.log ++ [msg] }
  else
    let toolCalls := extractToolUsesFromAssistant msg
    let st1 :=
      if 0 < st.pending.length ∧ toolCalls.length = 0 then
        flushPendingToolResults st now
      else st
    let st2 :=
      if 0 < st1.pending.length ∧ 0 < toolCalls.length then
        flushPendingToolResults st1 now
      else st1
    { pending := toolCalls.foldl (fun p kv => pendingSet p kv.1 kv.2) st2.pending
      log := st2.log ++ [msg] }

/-- Replay of a sequence of guarded appends (message, timestamp) from the
initial state. -/
def runGuard (ops : List (Message × Nat)) : GuardState :=
  ops.foldl (fun st op => guardAppend st op.1 op.2) initGuardState

/-- The session log after a run: every guarded append in order, then the
terminal `flushPendingToolResults` from the outermost `finally` of
`Agent.run` (`src/agent.ts`). -/
def finalGuardLog (ops : List (Message × Nat)) (now : Nat) : List Message :=
  (flushPendingToolResults (runGuard ops) now).log

/-- Tool-use ids of a message (assistant `tool_use` blocks with truthy id). -/
def toolUseIds (msg : Message) : List String :=
  (extractToolUsesFromAssistant msg).map Prod.fst

/-- Checker for the union form of the tool-result matching invariant: walk
the log keeping the set of yet-unmatched tool-use ids; a `tool_result`
bearing user message discharges its ids; any other message is admissible
only when nothing is unmatched; at the end nothing may remain unmatched.
Returns the ids still unmatched, or `none` if an unmatched id was overrun. -/
def runCheck : List Message → List String → Option (List String)
  | [], p => some p
  | m :: rest, p =>
    let rids := extractToolResultIds m
    if rids ≠ [] then
      runCheck rest (p.filter fun id => decide (id ∉ rids))
    else if p ≠ [] then none
    else runCheck rest (toolUseIds m)

/-- A log satisfies tool-result matching (union form) when the checker
finishes with nothing unmatched. -/
def toolResultsMatched (L : List Message) : Bool :=
  match runCheck L [] with
  | some p => p.isEmpty
  | none => false

/-- The run of `tool_result`-bearing user messages at the head of a log. -/
def toolResultRun (L : List Message) : List Message :=
  L.takeWhile fun m => decide (extractToolResultIds m ≠ [])

/-- Checker for the claim's literal, single-message form of the invariant:
for every assistant message with `tool_use` ids `T`, some single later user
message occurring before the next non-`tool_result` message must carry
`tool_result` blocks whose id set includes all of `T`. -/
def singleCovered : List Message → Bool
  | [] => true
  | m :: rest =>
    let T := toolUseIds m
    (T.isEmpty ||
      (toolResultRun rest).any fun r =>
        T.all fun id => decide (id ∈ extractToolResultIds r)) &&
    singleCovered rest

/-- Every tool-use id recorded by extraction is truthy (non-empty). -/
theorem extractToolUses_id_ne (msg : Message) :
    ∀ kv ∈ extractToolUsesFromAssistant msg, kv.1 ≠ "" := by
  intro kv hkv
  rcases msg with ⟨role, content, ts⟩
  cases role with
  | user => simp [extractToolUsesFromAssistant] at hkv
  | assistant =>
    cases content with
    | str s => simp [extractToolUsesFromAssistant] at hkv
    | blocks bs =>
      simp only [extractToolUsesFromAssistant, List.mem_filterMap] at hkv
      rcases hkv with ⟨b, hb, hfb⟩
      cases b with
      | text t => simp at hfb
      | toolResult a b c => simp at hfb
      | toolUse id name input =>
        by_cases hid : id = ""
        · simp [hid] at hfb
        · simp only [ne_eq, hid, not_false_iff, if_true, Option.some.injEq] at hfb
          subst hfb
          exact hid

/-- Membership in the keys after a JS `Map.delete`. -/
theorem mem_pendingKeys_delete (p : Pending) (a id : String) :
    id ∈ pendingKeys (pendingDelete p a) ↔ id ∈ pendingKeys p ∧ id ≠ a := by
  simp only [pendingKeys, pendingDelete, List.mem_map, List.mem_filter]
  constructor
  · rintro ⟨kv, ⟨hkv, hne⟩, rfl⟩
    exact ⟨⟨kv, hkv, rfl⟩, by simpa using hne⟩
  · rintro ⟨⟨kv, hkv, rfl⟩, hne⟩
    exact ⟨kv, ⟨hkv, by simpa using hne⟩, rfl⟩

/-- Membership in the keys after deleting a list of ids. -/
theorem mem_pendingKeys_foldl_delete (ids : List String) (p : Pending) (id : String) :
    id ∈ pendingKeys (ids.foldl pendingDelete p) ↔ id ∈ pendingKeys p ∧ id ∉ ids := by
  induction ids generalizing p with
  | nil => simp
  | cons a rest ih =>
      simp only [List.foldl_cons, ih, mem_pendingKeys_delete, List.mem_cons]
      tauto

/-- Membership in the keys after a JS `Map.set`. -/
theorem mem_pendingKeys_set (p : Pending) (a n id : String) :
    id ∈ pendingKeys (pendingSet p a n) ↔ id ∈ pendingKeys p ∨ id = a := by
  unfold pendingSet
  split
  · rename_i hany
    have hkeys : pendingKeys (p.map fun kv => if kv.1 = a then (a, n) else kv) =
        pendingKeys p := by
      simp only [pendingKeys, List.map_map]
      apply List.map_congr_left
      intro kv _
      by_cases h : kv.1 = a <;> simp [h]
    rw [hkeys]
    have ha : a ∈ pendingKeys p := by
      rcases List.any_eq_true.mp hany with ⟨kv, hkv, hp⟩
      exact List.mem_map.mpr ⟨kv, hkv, by simpa using hp⟩
    constructor
    · exact Or.inl
    · rintro (h | rfl)
      · exact h
      · exact ha
  · simp [pendingKeys]

/-- Membership in the keys after recording a batch of tool calls. -/
theorem mem_pendingKeys_foldl_set (kvs : List (String × String)) (p : Pending) (id : String) :
    id ∈ pendingKeys (kvs.foldl (fun p kv => pendingSet p kv.1 kv.2) p) ↔
      id ∈ pendingKeys p ∨ id ∈ kvs.map Prod.fst := by
  induction kvs generalizing p with
  | nil => simp
  | cons kv rest ih =>
      simp only [List.foldl_cons, ih, mem_pendingKeys_set, List.map_cons, List.mem_cons]
      tauto

/-- The checker distributes over log concatenation. -/
theorem runCheck_append (L₁ L₂ : List Message) (p : List String) :
    runCheck (L₁ ++ L₂) p = (runCheck L₁ p).bind fun q => runCheck L₂ q := by
  induction L₁ generalizing p with
  | nil => simp [runCheck]
  | cons m rest ih =>
      simp only [List.cons_append, runCheck]
      split
      · exact ih _
      · split
        · simp
        · exact ih _

/-- Result ids extracted from a flush message are exactly the pending keys,
provided every pending id is truthy. -/
theorem extract_flushMsg (pend : Pending) (now : Nat)
    (hne : ∀ id ∈ pendingKeys pend, id ≠ "") :
    extractToolResultIds
      { role := .user
        content := .blocks (pend.map fun kv => makeMissingToolResult kv.1 (some kv.2))
        timestamp := now } = pendingKeys pend := by
  unfold extractToolResultIds makeMissingToolResult
  simp only [List.filterMap_map]
  induction pend with
  | nil => simp [pendingKeys]
  | cons kv rest ih =>
      have hkv : kv.1 ≠ "" := hne kv.1 (List.mem_map.mpr ⟨kv, List.mem_cons_self _ _, rfl⟩)
      have hrest : ∀ id ∈ pendingKeys rest, id ≠ "" := by
        intro id hid
        rcases List.mem_map.mp hid with ⟨kv', hkv', rfl⟩
        exact hne kv'.1 (List.mem_map.mpr ⟨kv', List.mem_cons_of_mem _ hkv', rfl⟩)
      simp only [List.filterMap_cons, Function.comp]
      rw [if_pos hkv]
      simpa [pendingKeys] using ih hrest

/-- Guard invariant tying the checker state of the persisted log to the
in-memory pending map: the checker succeeds on the log and finishes holding
exactly the pending keys, all of which are truthy. -/
def GuardInv (st : GuardState) : Prop :=
  ∃ P, runCheck st.log [] = some P ∧
    (∀ id, id ∈ P ↔ id ∈ pendingKeys st.pending) ∧
    (∀ id ∈ pendingKeys st.pending, id ≠ "")

theorem guardInv_init : GuardInv initGuardState :=
  ⟨[], rfl, by simp [pendingKeys, initGuardState], by simp [pendingKeys, initGuardState]⟩

/-- Flushing a state that satisfies the invariant leaves a matched log with
an empty pending map. -/
theorem guardInv_flush (st : GuardState) (now : Nat) (h : GuardInv st) :
    GuardInv (flushPendingToolResults st now) ∧
      (flushPendingToolResults st now).pending = [] := by
  rcases h with ⟨P, hrc, hmem, hne⟩
  unfold flushPendingToolResults
  by_cases hp : st.pending.isEmpty
  · rw [if_pos hp]
    have : st.pending = [] := List.isEmpty_iff.mp hp
    refine ⟨⟨P, hrc, hmem, hne⟩, this⟩
  · rw [if_neg hp]
    have hpend : st.pending ≠ [] := fun h => hp (by simp [h])
    refine ⟨⟨[], ?_, by simp [pendingKeys], by simp [pendingKeys]⟩, rfl⟩
    rw [runCheck_append, hrc]
    show runCheck [_] P = some []
    rw [runCheck]
    have hex : extractToolResultIds
        { role := .user
          content := .blocks (st.pending.map fun kv => makeMissingToolResult kv.1 (some kv.2))
          timestamp := now } = pendingKeys st.pending := extract_flushMsg st.pending now hne
    have hkeysne : pendingKeys st.pending ≠ [] := by
      intro hk
      exact hpend (List.map_eq_nil_iff.mp hk)
    rw [if_pos (by rw [hex]; exact hkeysne)]
    have hfilter : P.filter (fun id =>
        decide (id ∉ extractToolResultIds
          { role := .user
            content := .blocks (st.pending.map fun kv => makeMissingToolResult kv.1 (some kv.2))
            timestamp := now })) = [] := by
      rw [hex]
      apply List.filter_eq_nil_iff.mpr
      intro id hid
      simp only [decide_eq_true_eq, not_not]
      exact (hmem id).mp hid
    rw [hfilter]
    rfl

/-- The flushed pending map is always empty. -/
theorem flush_pending_eq_nil (st : GuardState) (now : Nat) :
    (flushPendingToolResults st now).pending = [] := by
  unfold flushPendingToolResults
  split
  · exact List.isEmpty_iff.mp ‹_›
  · rfl

/-- Closed form of the guarded append when the incoming message carries no
`tool_result` blocks: flush first (a no-op on an empty pending map), then
persist the message and record its tool calls. -/
theorem guardAppend_no_results (st : GuardState) (msg : Message) (now : Nat)
    (hr : extractToolResultIds msg = []) :
    guardAppend st msg now =
      { pending := (extractToolUsesFromAssistant msg).foldl
          (fun p kv => pendingSet p kv.1 kv.2) []
        log := (flushPendingToolResults st now).log ++ [msg] } := by
  by_cases hp0 : st.pending = []
  · have hf : flushPendingToolResults st now = st := by
      simp [flushPendingToolResults, hp0]
    simp [guardAppend, hr, hp0, hf]
  · have hlen : 0 < st.pending.length := List.length_pos.mpr hp0
    have hfp : (flushPendingToolResults st now).pending = [] := flush_pending_eq_nil st now
    by_cases ht : extractToolUsesFromAssistant msg = []
    · simp [guardAppend, hr, ht, hlen, hfp]
    · have htlen : 0 < (extractToolUsesFromAssistant msg).length := List.length_pos.mpr ht
      simp [guardAppend, hr, ht, hlen, htlen, hfp, Nat.pos_iff_ne_zero]

/-- The guarded append preserves the guard invariant. -/
theorem guardInv_append (st : GuardState) (msg : Message) (now : Nat)
    (h : GuardInv st) : GuardInv (guardAppend st msg now) := by
  by_cases hr : extractToolResultIds msg = []
  · rw [guardAppend_no_results st msg now hr]
    obtain ⟨hinv', hfpend⟩ := guardInv_flush st now h
    rcases hinv' with ⟨P, hrc, hmem, _⟩
    have hP : P = [] := by
      apply List.eq_nil_iff_forall_not_mem.mpr
      intro id hid
      have := (hmem id).mp hid
      rw [hfpend] at this
      simp [pendingKeys] at this
    refine ⟨toolUseIds msg, ?_, ?_, ?_⟩
    · rw [runCheck_append, hrc]
      show runCheck [msg] P = _
      subst hP
      rw [runCheck, if_neg (by simp [hr]), if_neg (by simp)]
      rfl
    · intro id
      rw [mem_pendingKeys_foldl_set]
      simp [toolUseIds, pendingKeys]
    · intro id hid
      rw [mem_pendingKeys_foldl_set] at hid
      rcases hid with h1 | h2
      · simp [pendingKeys] at h1
      · rcases List.mem_map.mp h2 with ⟨kv, hkv, rfl⟩
        exact extractToolUses_id_ne msg kv hkv
  · rcases h with ⟨P, hrc, hmem, hne⟩
    have hform : guardAppend st msg now =
        { pending := (extractToolResultIds msg).foldl pendingDelete st.pending
          log := st.log ++ [msg] } := by
      simp only [guardAppend]
      rw [if_pos hr]
    rw [hform]
    refine ⟨P.filter (fun id => decide (id ∉ extractToolResultIds msg)), ?_, ?_, ?_⟩
    · rw [runCheck_append, hrc]
      show runCheck [msg] P = _
      rw [runCheck, if_pos hr]
      rfl
    · intro id
      rw [List.mem_filter, mem_pendingKeys_foldl_delete]
      simp only [decide_eq_true_eq]
      rw [hmem id]
    · intro id hid
      rw [mem_pendingKeys_foldl_delete] at hid
      exact hne id hid.1

/-- The guard invariant holds after any sequence of guarded appends. -/
theorem guardInv_runGuard (ops : List (Message × Nat)) : GuardInv (runGuard ops) := by
  suffices h : ∀ st, GuardInv st →
      GuardInv (ops.foldl (fun st op => guardAppend st op.1 op.2) st) by
    exact h initGuardState guardInv_init
  induction ops with
  | nil => intro st h; exact h
  | cons op rest ih =>
      intro st h
      exact ih _ (guardInv_append st op.1 op.2 h)

end Guard

/-- Claim C1, literal form, refuted: replay through the guarded append an
assistant message with tool uses `t1, t2`, a user message resolving only
`t1`, and a plain user message. The guard synthesizes the missing `t2`
result in a separate message, so no single user message before the next
non-`tool_result` message covers both ids. -/
def c1msgA : Message :=
  ⟨.assistant, .blocks [.toolUse "t1" "exec" "a", .toolUse "t2" "read" "b"], 1⟩

/-- A user message resolving only the first of the two pending tool uses. -/
def c1msgR : Message :=
  ⟨.user, .blocks [.toolResult "t1" (some "exec") "ok"], 2⟩

/-- A plain user message with no tool results. -/
def c1msgU : Message := ⟨.user, .str "hi", 3⟩

/-- The append sequence of the C1 counterexample. -/
def c1ops : List (Message × Nat) := [(c1msgA, 1), (c1msgR, 2), (c1msgU, 3)]

/-- Claim C1 (counterexample): the log produced by the guard on `c1ops`
violates the claim's single-message coverage requirement — no single user
message before the first non-`tool_result` message carries `tool_result`
blocks for both `t1` and `t2`. -/
theorem claim1_counterexample :
    Guard.singleCovered (Guard.finalGuardLog c1ops 4) = false := by decide

/-- Claim C1 (amended): for every sequence of appends through the guarded
`SessionManager.append`, after the terminal `flushPendingToolResults` of the
run, every `tool_use` id of every assistant message is matched by a
`tool_result` block of some user message appearing after it and before any
later non-`tool_result` message (union coverage rather than a single
covering message). -/
theorem claim1_union_coverage (ops : List (Message × Nat)) (now : Nat) :
    Guard.toolResultsMatched (Guard.finalGuardLog ops now) = true := by
  obtain ⟨hinv, hpend⟩ :=
    Guard.guardInv_flush (Guard.runGuard ops) now (Guard.guardInv_runGuard ops)
  rcases hinv with ⟨P, hrc, hmem, _⟩
  have hP : P = [] := by
    apply List.eq_nil_iff_forall_not_mem.mpr
    intro id hid
    have := (hmem id).mp hid
    rw [hpend] at this
    simp [Guard.pendingKeys] at this
  unfold Guard.toolResultsMatched Guard.finalGuardLog
  rw [hrc, hP]
  rfl

/-- Claim C2 (counterexample): the synthetic placeholder persisted by the
guard flush is the source's transcript-repair string, not the claim's
"missing tool result in session history; synthetic error result inserted". -/
theorem claim2_counterexample :
    (Guard.guardAppend ⟨[("t1", "exec")], []⟩ ⟨.user, .str "hi", 7⟩ 9).log =
      [⟨.user, .blocks [.toolResult "t1" (some "exec")
          "[openclaw-mini] missing tool result in session history; inserted synthetic error result for transcript repair."], 9⟩,
       ⟨.user, .str "hi", 7⟩] ∧
    "[openclaw-mini] missing tool result in session history; inserted synthetic error result for transcript repair." ≠
      "missing tool result in session history; synthetic error result inserted" := by
  constructor
  · rfl
  · decide

/-- Claim C2 (amended): whenever the guarded append receives a message that
carries no `tool_result` blocks while the pending map is non-empty, it first
persists a single user message holding exactly one synthetic `tool_result`
per pending id (in order, with the source's placeholder text), clears the
pending map, then persists the new message and records its tool uses. -/
theorem claim2_flush_rule (st : Guard.GuardState) (msg : Message) (now : Nat)
    (hp : st.pending ≠ [])
    (hm : Guard.extractToolResultIds msg = []) :
    (Guard.guardAppend st msg now).log =
      st.log ++
        [{ role := .user
           content := .blocks (st.pending.map fun kv =>
             Guard.makeMissingToolResult kv.1 (some kv.2))
           timestamp := now }] ++ [msg] ∧
    (Guard.guardAppend st msg now).pending =
      (Guard.extractToolUsesFromAssistant msg).foldl
        (fun p kv => Guard.pendingSet p kv.1 kv.2) [] := by
  rw [Guard.guardAppend_no_results st msg now hm]
  have hflush : Guard.flushPendingToolResults st now =
      { pending := []
        log := st.log ++
          [{ role := .user
             content := .blocks (st.pending.map fun kv =>
               Guard.makeMissingToolResult kv.1 (some kv.2))
             timestamp := now }] } := by
    unfold Guard.flushPendingToolResults
    rw [if_neg (by simp [hp])]
  rw [hflush]
  exact ⟨by simp, rfl⟩

/-- Claim C2 witness: the amended flush rule evaluated at a concrete state
with one pending id and a plain user message. -/
theorem claim2_witness :
    (Guard.guardAppend ⟨[("t1", "exec")], []⟩ ⟨.user, .str "hi", 7⟩ 9).log =
      [⟨.user, .blocks [.toolResult "t1" (some "exec")
          "[openclaw-mini] missing tool result in session history; inserted synthetic error result for transcript repair."], 9⟩,
       ⟨.user, .str "hi", 7⟩] ∧
    (Guard.guardAppend ⟨[("t1", "exec")], []⟩ ⟨.user, .str "hi", 7⟩ 9).pending = [] := by
  have h := claim2_flush_rule ⟨[("t1", "exec")], []⟩ ⟨.user, .str "hi", 7⟩ 9
    (by decide) (by decide)
  exact ⟨h.1, h.2⟩

namespace Loop

/-- A parsed tool call of one assistant batch, the `toolCalls` entries of
`runAgentLoop` in `src/agent-loop.ts` (id, name, serialized arguments). -/
structure ToolCall where
  id : String
  name : String
  input : String
deriving DecidableEq, Repr

/-- Events pushed on the run's event stream by the tool-execution segment of
`runAgentLoop` (`tool_execution_start`, `tool_execution_end`,
`tool_skipped`, `steering`). -/
inductive LoopEvent where
  | toolExecutionStart (toolCallId toolName : String)
  | toolExecutionEnd (toolCallId toolName : String) (result : String) (isError : Bool)
  | toolSkipped (toolCallId toolName : String)
  | steering (pendingCount : Nat)
deriving DecidableEq, Repr

/-- Placeholder result for a preempted tool call, `skipToolCall` in
`src/agent-loop.ts`. -/
def skipToolCall (call : ToolCall) : CBlock :=
  .toolResult call.id (some call.name) "Skipped due to queued user message."

/-- Truncation of a tool result for the `tool_execution_end` event
(`result.length > 500 ? result.slice(0, 500) + "..." : result`). -/
def resultPreview (r : String) : String :=
  if r.length > 500 then String.append (r.take 500) "..." else r

/-- The tool-execution loop of one turn of `runAgentLoop`
(`src/agent-loop.ts`, the `for (let i = 0; ...)` over `toolCalls`):
execute each call in order, push its start/end events and its real
`tool_result` block, then poll steering; when steering returns messages,
push a `tool_skipped` event and a skip block for every remaining call, push
the `steering` event and stop. `toolExists` abstracts the
`toolsForRun.find` lookup, `exec` the `tool.execute` call together with its
catch-to-string conversion, and `steering i` the result of the `i`-th
`getSteeringMessages()` poll of this turn (0-based, polled after the `i`-th
executed call). Returns the `toolResults` blocks, the pushed events, and
the steering messages if preempted. -/
def goTools (toolExists : String → Bool) (exec : ToolCall → String)
    (steering : Nat → List Message) :
    List ToolCall → Nat → List CBlock × List LoopEvent × Option (List Message)
  | [], _ => ([], [], none)
  | call :: rest, i =>
    let result := exec call
    let isError := !(toolExists call.name)
    let ev1 := LoopEvent.toolExecutionStart call.id call.name
    let ev2 := LoopEvent.toolExecutionEnd call.id call.name (resultPreview result) isError
    let block := CBlock.toolResult call.id (some call.name) result
    let steer := steering i
    if steer ≠ [] then
      (block :: rest.map skipToolCall,
       [ev1, ev2] ++ (rest.map fun c => LoopEvent.toolSkipped c.id c.name) ++
         [LoopEvent.steering steer.length],
       some steer)
    else
      let next := goTools toolExists exec steering rest (i + 1)
      (block :: next.1, [ev1, ev2] ++ next.2.1, next.2.2)

/-- The whole tool-execution phase, starting at steering poll index 0. -/
def executeToolsPhase (calls : List ToolCall) (toolExists : String → Bool)
    (exec : ToolCall → String) (steering : Nat → List Message) :
    List CBlock × List LoopEvent × Option (List Message) :=
  goTools toolExists exec steering calls 0

/-- The user message persisted after the phase (`resultMsg` in
`src/agent-loop.ts`): all tool results of the batch, skips included. -/
def toolPhaseResultMsg (calls : List ToolCall) (toolExists : String → Bool)
    (exec : ToolCall → String) (steering : Nat → List Message) (now : Nat) : Message :=
  ⟨.user, .blocks (executeToolsPhase calls toolExists exec steering).1, now⟩

/-- The real (non-skipped) result block of one executed call. -/
def realResultBlock (exec : ToolCall → String) (call : ToolCall) : CBlock :=
  .toolResult call.id (some call.name) (exec call)

/-- Unfolding lemma for `goTools` when steering first fires after the `M`-th
executed call (1-based), stated at an arbitrary starting poll index. -/
theorem goTools_steering_spec (toolExists : String → Bool) (exec : ToolCall → String)
    (steering : Nat → List Message) (calls : List ToolCall) (i₀ M : Nat)
    (h1 : 1 ≤ M) (h2 : M ≤ calls.length)
    (hs : steering (i₀ + M - 1) ≠ [])
    (hpre : ∀ j, j < M - 1 → steering (i₀ + j) = []) :
    goTools toolExists exec steering calls i₀ =
      ((calls.take M).map (realResultBlock exec) ++ (calls.drop M).map skipToolCall,
       ((calls.take M).flatMap fun c =>
          [LoopEvent.toolExecutionStart c.id c.name,
           LoopEvent.toolExecutionEnd c.id c.name (resultPreview (exec c))
             (!(toolExists c.name))]) ++
         ((calls.drop M).map fun c => LoopEvent.toolSkipped c.id c.name) ++
         [LoopEvent.steering (steering (i₀ + M - 1)).length],
       some (steering (i₀ + M - 1))) := by
  induction calls generalizing i₀ M with
  | nil => simp at h2; omega
  | cons call rest ih =>
      cases M with
      | zero => omega
      | succ m =>
        cases m with
        | zero =>
          have hs' : steering i₀ ≠ [] := by
            have harith : i₀ + 1 - 1 = i₀ := by omega
            rw [harith] at hs
            exact hs
          simp only [goTools, if_pos hs']
          have harith : i₀ + 1 - 1 = i₀ := by omega
          rw [harith]
          simp [realResultBlock]
        | succ m' =>
          have hz : steering i₀ = [] := by
            have h0 := hpre 0 (by omega)
            have harith : i₀ + 0 = i₀ := by omega
            rw [harith] at h0
            exact h0
          have hcond : ¬(steering i₀ ≠ []) := by simp [hz]
          simp only [goTools, if_neg hcond]
          have h2' : m' + 1 ≤ rest.length := by
            simp at h2
            omega
          have hs' : steering (i₀ + 1 + (m' + 1) - 1) ≠ [] := by
            have harith : i₀ + 1 + (m' + 1) - 1 = i₀ + (m' + 1 + 1) - 1 := by omega
            rw [harith]
            exact hs
          have hpre' : ∀ j, j < m' + 1 - 1 → steering (i₀ + 1 + j) = [] := by
            intro j hj
            have harith : i₀ + 1 + j = i₀ + (j + 1) := by omega
            rw [harith]
            exact hpre (j + 1) (by omega)
          rw [ih (i₀ + 1) (m' + 1) (by omega) h2' hs' hpre']
          have harith : i₀ + 1 + (m' + 1) - 1 = i₀ + (m' + 1 + 1) - 1 := by omega
          rw [harith]
          simp [realResultBlock]

/-- Claim C3: if steering is delivered exactly once, after the `M`-th of `N`
tool calls of a single assistant batch has executed, the persisted user
message contains in order the real results for calls `1..M` followed by
"Skipped due to queued user message." results for calls `M+1..N`, one
`tool_skipped` event is pushed per skipped call, and the drained steering
messages become the pending messages of the next turn. -/
theorem claim3_steering_preemption (calls : List ToolCall) (toolExists : String → Bool)
    (exec : ToolCall → String) (steering : Nat → List Message) (now M : Nat)
    (h1 : 1 ≤ M) (h2 : M ≤ calls.length)
    (hs : steering (M - 1) ≠ [])
    (hpre : ∀ j, j < M - 1 → steering j = []) :
    toolPhaseResultMsg calls toolExists exec steering now =
      ⟨.user, .blocks ((calls.take M).map (realResultBlock exec) ++
        (calls.drop M).map skipToolCall), now⟩ ∧
    ((executeToolsPhase calls toolExists exec steering).2.1.filter fun e =>
        match e with
        | .toolSkipped _ _ => true
        | _ => false) =
      ((calls.drop M).map fun c => LoopEvent.toolSkipped c.id c.name) ∧
    (executeToolsPhase calls toolExists exec steering).2.2 = some (steering (M - 1)) := by
  have hspec := goTools_steering_spec toolExists exec steering calls 0 M h1 h2
    (by simpa using hs) (by simpa using hpre)
  have hzero : (0 : Nat) + M - 1 = M - 1 := by omega
  rw [hzero] at hspec
  refine ⟨?_, ?_, ?_⟩
  · unfold toolPhaseResultMsg executeToolsPhase
    rw [hspec]
  · unfold executeToolsPhase
    rw [hspec]
    simp only [List.filter_append]
    have hl : (((calls.take M).flatMap fun c =>
        [LoopEvent.toolExecutionStart c.id c.name,
         LoopEvent.toolExecutionEnd c.id c.name (resultPreview (exec c))
           (!(toolExists c.name))]).filter fun e =>
          match e with
          | .toolSkipped _ _ => true
          | _ => false) = [] := by
      apply List.filter_eq_nil_iff.mpr
      intro e he
      rcases List.mem_flatMap.mp he with ⟨c, hc1, hc2⟩
      simp only [List.mem_cons, List.not_mem_nil, or_false] at hc2
      rcases hc2 with rfl | rfl
      · simp
      · simp
    have hm : (((calls.drop M).map fun c =>
        LoopEvent.toolSkipped c.id c.name).filter fun e =>
          match e with
          | .toolSkipped _ _ => true
          | _ => false) =
        ((calls.drop M).map fun c => LoopEvent.toolSkipped c.id c.name) := by
      apply List.filter_eq_self.mpr
      intro e he
      rcases List.mem_map.mp he with ⟨c, _, rfl⟩
      simp
    rw [hl, hm]
    simp
  · unfold executeToolsPhase
    rw [hspec]

/-- Claim C3 witness: a three-call batch preempted after the second call. -/
theorem claim3_witness :
    Loop.toolPhaseResultMsg
        [⟨"a1", "exec", "x"⟩, ⟨"a2", "read", "y"⟩, ⟨"a3", "write", "z"⟩]
        (fun _ => true) (fun c => String.append "ran " c.name)
        (fun i => if i = 1 then [⟨.user, .str "wait", 5⟩] else []) 9 =
      ⟨.user, .blocks
        [.toolResult "a1" (some "exec") "ran exec",
         .toolResult "a2" (some "read") "ran read",
         .toolResult "a3" (some "write") "Skipped due to queued user message."], 9⟩ := by
  have h := claim3_steering_preemption
    [⟨"a1", "exec", "x"⟩, ⟨"a2", "read", "y"⟩, ⟨"a3", "write", "z"⟩]
    (fun _ => true) (fun c => String.append "ran " c.name)
    (fun i => if i = 1 then [⟨.user, .str "wait", 5⟩] else []) 9 2
    (by omega) (by simp) (by simp)
    (by intro j hj
        have hj0 : j = 0 := by omega
        subst hj0
        simp)
  rw [h.1]
  rfl

/-- Substring test on strings, the `String.prototype.includes` of the error
classifiers. -/
def strContains (s pat : String) : Bool :=
  decide (pat.toList <:+: s.toList)

/-- Modelled from the spec: `isContextOverflowError` lives in
`src/provider/errors.ts`, which is not under `src/`; per the spec (§4.E.2) a
context-overflow error is classified by the substrings "context length",
"too long", "maximum context". -/
def isContextOverflowError (s : String) : Bool :=
  strContains s "context length" || strContains s "too long" || strContains s "maximum context"

/-- Outcome of one LLM call attempt of the loop: success, or a thrown error
described by its text (`describeError`). -/
inductive TurnOutcome where
  | ok
  | fail (msg : String)
deriving DecidableEq, Repr

/-- The loop state relevant to overflow compaction in `runAgentLoop`
(`src/agent-loop.ts`): the turn counter, the `overflowCompactionAttempted`
flag, the active `compactionSummary`, and the number of times
`prepareCompaction` has been invoked from the overflow handler. -/
structure OverflowLoopState where
  turns : Nat
  attempted : Bool
  compactionSummary : Option Message
  compactCalls : Nat
deriving DecidableEq, Repr

/-- JS truthiness of the optional `summary` string returned by
`prepareCompaction` (absent and empty strings are falsy). -/
def summaryTruthy : Option String → Bool
  | some s => s ≠ ""
  | none => false

/-- The turn loop of `runAgentLoop` restricted to the LLM-call/catch
skeleton (`src/agent-loop.ts`, the `catch (llmError)` handler): each
iteration increments `turns` and consumes one scripted call outcome; on a
context-overflow failure with the attempted flag clear, the flag is set and
`prepareCompaction` (whose fixed result is `prep`) is consulted — a truthy
summary plus message installs the new compaction summary, decrements
`turns` and retries (`continue`); otherwise, and on every other failure,
the error propagates. -/
def runOverflowLoop (prep : Option String × Option Message) :
    List TurnOutcome → OverflowLoopState → OverflowLoopState × Except String Unit
  | [], st => (st, .ok ())
  | o :: rest, st =>
    let st1 : OverflowLoopState := { st with turns := st.turns + 1 }
    match o with
    | .ok => runOverflowLoop prep rest st1
    | .fail e =>
      if isContextOverflowError e && !st1.attempted then
        let st2 : OverflowLoopState :=
          { st1 with attempted := true, compactCalls := st1.compactCalls + 1 }
        match prep.2, summaryTruthy prep.1 with
        | some m, true =>
            runOverflowLoop prep rest
              { st2 with compactionSummary := some m, turns := st2.turns - 1 }
        | some _, false => (st2, .error e)
        | none, _ => (st2, .error e)
      else (st1, .error e)

/-- The overflow handler calls `prepareCompaction` at most once per run. -/
theorem runOverflowLoop_calls_le (prep : Option String × Option Message)
    (script : List TurnOutcome) :
    ∀ st : OverflowLoopState, st.compactCalls ≤ 1 →
      (st.attempted = false → st.compactCalls = 0) →
      (runOverflowLoop prep script st).1.compactCalls ≤ 1 := by
  induction script with
  | nil =>
      intro st h1 h2
      simpa [runOverflowLoop] using h1
  | cons o rest ih =>
      intro st h1 h2
      cases o with
      | ok =>
          simp only [runOverflowLoop]
          exact ih _ (by simpa using h1) (by simpa using h2)
      | fail e =>
          simp only [runOverflowLoop]
          split
          · rename_i hcond
            have hatt : st.attempted = false := by
              have := (Bool.and_eq_true .. ▸ hcond).2
              simpa using this
            have hc0 : st.compactCalls = 0 := h2 hatt
            split
            · apply ih
              · simp [hc0]
              · intro habs
                simp at habs
            · simp [hc0]
            · simp [hc0]
          · simpa using h1

/-- Claim C4: overflow auto-compaction happens exactly once per run. On the
first LLM failure classified as context overflow with the attempted flag
clear, the handler sets the flag, calls `prepareCompaction`, and — when a
truthy summary and message are produced — installs the summary, cancels the
turn increment, and retries; an overflow with the flag already set, or one
whose compaction yields no summary, propagates the error. In every run
started with the flag clear, `prepareCompaction` runs at most once. -/
theorem claim4_overflow_once :
    (∀ (prep : Option String × Option Message) (script : List TurnOutcome)
        (st : OverflowLoopState),
        st.attempted = false → st.compactCalls = 0 →
        (runOverflowLoop prep script st).1.compactCalls ≤ 1) ∧
    (∀ (prep : Option String × Option Message) (e : String)
        (rest : List TurnOutcome) (st : OverflowLoopState) (m : Message),
        st.attempted = false → isContextOverflowError e = true →
        prep.2 = some m → summaryTruthy prep.1 = true →
        runOverflowLoop prep (.fail e :: rest) st =
          runOverflowLoop prep rest
            { st with attempted := true
                      compactCalls := st.compactCalls + 1
                      compactionSummary := some m }) ∧
    (∀ (prep : Option String × Option Message) (e : String)
        (rest : List TurnOutcome) (st : OverflowLoopState),
        st.attempted = true → isContextOverflowError e = true →
        runOverflowLoop prep (.fail e :: rest) st =
          ({ st with turns := st.turns + 1 }, .error e)) ∧
    (∀ (prep : Option String × Option Message) (e : String)
        (rest : List TurnOutcome) (st : OverflowLoopState),
        st.attempted = false → isContextOverflowError e = true →
        summaryTruthy prep.1 = false ∨ prep.2 = none →
        (runOverflowLoop prep (.fail e :: rest) st).2 = .error e) := by
  refine ⟨?_, ?_, ?_, ?_⟩
  · intro prep script st h1 h2
    exact runOverflowLoop_calls_le prep script st (by simp [h2]) (fun _ => h2)
  · intro prep e rest st m hatt hov hp2 hs
    simp only [runOverflowLoop]
    rw [if_pos (by simp [hov, hatt])]
    rw [hp2, hs]
    congr 1
  · intro prep e rest st hatt hov
    simp only [runOverflowLoop]
    rw [if_neg (by simp [hatt])]
  · intro prep e rest st hatt hov hfail
    rcases prep with ⟨p1, p2⟩
    simp only [runOverflowLoop]
    rw [if_pos (by simp [hov, hatt])]
    rcases hfail with hf | hf
    · simp only at hf
      rw [hf]
      cases p2 <;> rfl
    · simp only at hf
      subst hf
      rfl

/-- Claim C4 witness: a run that hits two consecutive context-overflow
failures still performs at most one compaction attempt. -/
theorem claim4_witness :
    (Loop.runOverflowLoop (some "S", some ⟨.user, .str "S", 0⟩)
        [.fail "model maximum context exceeded", .fail "model maximum context exceeded"]
        ⟨0, false, none, 0⟩).1.compactCalls ≤ 1 :=
  claim4_overflow_once.1 _ _ _ rfl rfl

end Loop

namespace Prune

/-- Characters-per-token heuristic, `CHARS_PER_TOKEN_ESTIMATE` in
`src/context/tokens.ts` (value fixed by the spec §4.D.1). -/
def CHARS_PER_TOKEN_ESTIMATE : Nat := 4

/-- Modelled from the spec: `estimateMessageChars` lives in
`src/context/tokens.ts`, which is not under `src/`; per §4.D.1 the estimate
counts the characters of each block's serialized text (plain text for text
blocks, the result text for `tool_result` blocks, name plus serialized
arguments for `tool_use` blocks). -/
def blockChars : CBlock → Nat
  | .text t => t.length
  | .toolUse _ name input => name.length + input.length
  | .toolResult _ _ content => content.length

/-- Modelled from the spec: character estimate of one message. -/
def estimateMessageChars (m : Message) : Nat :=
  match m.content with
  | .str s => s.length
  | .blocks bs => (bs.map blockChars).sum

/-- Modelled from the spec: character estimate of a message list. -/
def estimateMessagesChars (ms : List Message) : Nat :=
  (ms.map estimateMessageChars).sum

/-- Allow/deny lists of `ContextPruningToolMatch` in
`src/context/pruning.ts` (the optional arrays resolved to `[]`). -/
structure ToolMatchCfg where
  allow : List String
  deny : List String
deriving DecidableEq, Repr

/-- Soft-trim parameters of `ContextPruningSettings.softTrim`. -/
structure SoftTrimCfg where
  maxChars : Nat
  headChars : Nat
  tailChars : Nat
deriving DecidableEq, Repr

/-- Hard-clear parameters of `ContextPruningSettings.hardClear`. -/
structure HardClearCfg where
  enabled : Bool
  placeholder : String
deriving DecidableEq, Repr

/-- Resolved pruning settings, `ContextPruningSettings` in
`src/context/pruning.ts` (ratios as exact rationals). -/
structure ContextPruningSettings where
  maxHistoryShare : ℚ
  keepLastAssistants : Nat
  softTrimRatio : ℚ
  hardClearRatio : ℚ
  minPrunableToolChars : Nat
  softTrim : SoftTrimCfg
  hardClear : HardClearCfg
  tools : ToolMatchCfg
deriving DecidableEq, Repr

/-- The default settings, `DEFAULT_CONTEXT_PRUNING_SETTINGS`. -/
def defaultSettings : ContextPruningSettings where
  maxHistoryShare := mkRat 1 2
  keepLastAssistants := 3
  softTrimRatio := mkRat 3 10
  hardClearRatio := mkRat 1 2
  minPrunableToolChars := 50000
  softTrim := ⟨4000, 1500, 1500⟩
  hardClear := ⟨true, "[Old tool result content cleared]"⟩
  tools := ⟨[], []⟩

/-- Wildcard matching over character lists: the semantics of the regex the
source builds in `matchGlob` (`src/context/pruning.ts`), where every
character is escaped literally except `*`, which becomes `.*`. -/
def globChars : List Char → List Char → Bool
  | [], [] => true
  | [], _ :: _ => false
  | '*' :: ps, s =>
    globChars ps s ||
      (match s with
       | [] => false
       | _ :: s' => globChars ('*' :: ps) s')
  | _ :: _, [] => false
  | p :: ps, c :: s => p == c && globChars ps s
termination_by pat s => (pat.length, s.length)

/-- Whitespace as stripped by the JS `String.prototype.trim` (the common
ASCII whitespace; tool names never contain any). -/
def jsIsWhitespace (c : Char) : Bool :=
  c == ' ' || c == '\t' || c == '\n' || c == '\r'

/-- Model of the JS `trim` on a character list. -/
def jsTrim (l : List Char) : List Char :=
  ((l.dropWhile jsIsWhitespace).reverse.dropWhile jsIsWhitespace).reverse

/-- ASCII lowering of one character, the effect of the JS `toLowerCase` on
the ASCII tool names and patterns this code handles. -/
def asciiLowerChar (c : Char) : Char :=
  if 'A' ≤ c ∧ c ≤ 'Z' then Char.ofNat (c.toNat + 32) else c

/-- Model of the JS `toLowerCase` on a character list. -/
def jsToLower (l : List Char) : List Char := l.map asciiLowerChar

/-- Glob matching with `*` wildcards, `matchGlob` in
`src/context/pruning.ts`, over character lists. -/
def matchGlob (value pattern : List Char) : Bool :=
  if pattern = ['*'] then true
  else if !(pattern.contains '*') then value = pattern
  else globChars pattern value

/-- Prunability predicate over a tool name, `makeToolPrunablePredicate` in
`src/context/pruning.ts`: deny first, empty allow means allow-all,
otherwise match allow; names are trimmed and lowercased, patterns
lowercased. -/
def makeToolPrunablePredicate (mcfg : Option ToolMatchCfg) (toolName : String) : Bool :=
  match mcfg with
  | none => true
  | some m =>
    let normalized := jsToLower (jsTrim toolName.toList)
    if m.deny.any fun pat => matchGlob normalized (jsToLower pat.toList) then false
    else if m.allow.isEmpty then true
    else m.allow.any fun pat => matchGlob normalized (jsToLower pat.toList)

/-- Stub for image-bearing tool results, `isToolResultProtected` in
`src/context/pruning.ts` (always false in mini). -/
def isToolResultProtected (_ : CBlock) : Bool := false

/-- Trailer appended to a soft-trimmed tool result. -/
def softTrimNotice (headChars tailChars rawLen : Nat) : String :=
  "\n\n[Tool result trimmed: kept first " ++ toString headChars ++
    " chars and last " ++ toString tailChars ++ " chars of " ++
    toString rawLen ++ " chars.]"

/-- Soft trim of a single `tool_result` block, `softTrimToolResultBlock` in
`src/context/pruning.ts`. Note that the source passes `block.tool_use_id`
(not the tool name) to the prunability predicate. -/
def softTrimToolResultBlock (block : CBlock) (cfg : SoftTrimCfg)
    (isPrunable : String → Bool) : CBlock × Bool :=
  match block with
  | .toolResult tid name content =>
    if isToolResultProtected block then (block, false)
    else if tid ≠ "" && !(isPrunable tid) then (block, false)
    else
      let rawLen := content.length
      if rawLen ≤ cfg.maxChars then (block, false)
      else if cfg.headChars + cfg.tailChars ≥ rawLen then (block, false)
      else
        let head := content.take cfg.headChars
        let tail := content.drop (rawLen - cfg.tailChars)
        (.toolResult tid name
          (head ++ "\n...\n" ++ tail ++ softTrimNotice cfg.headChars cfg.tailChars rawLen),
         true)
  | _ => (block, false)

/-- Layer 1, `applySoftTrim` in `src/context/pruning.ts`: trim every block
of every message, counting the trimmed tool results. -/
def applySoftTrim (msgs : List Message) (cfg : SoftTrimCfg)
    (isPrunable : String → Bool) : List Message × Nat :=
  let pairs := msgs.map fun msg =>
    match msg.content with
    | .str _ => (msg, 0)
    | .blocks bs =>
      let rs := bs.map fun b => softTrimToolResultBlock b cfg isPrunable
      ({ msg with content := .blocks (rs.map Prod.fst) },
       (rs.filter Prod.snd).length)
  (pairs.map Prod.fst, (pairs.map Prod.snd).sum)

/-- Total prunable tool-result characters, `countPrunableToolChars` in
`src/context/pruning.ts` (again keyed on `tool_use_id`). -/
def countPrunableToolChars (msgs : List Message) (isPrunable : String → Bool) : Nat :=
  (msgs.map fun msg =>
    match msg.content with
    | .str _ => 0
    | .blocks bs =>
      (bs.map fun b =>
        match b with
        | .toolResult tid _ content =>
          if isToolResultProtected b then 0
          else if tid ≠ "" && !(isPrunable tid) then 0
          else content.length
        | _ => 0).sum).sum

/-- Hard clear over the blocks of one message, threading the running
character total (`totalChars` in `applyHardClear`): a prunable non-empty
`tool_result` is replaced by the placeholder while the running ratio is
still at or above `hardClearRatio`. The running total is an `Int`, as in
the source the subtraction `beforeLen - placeholder.length` may be
negative. -/
def hardClearBlocksGo (cfg : ContextPruningSettings) (charWindow : Nat)
    (isPrunable : String → Bool) :
    List CBlock → Int → List CBlock × Int × Nat
  | [], total => ([], total, 0)
  | b :: bs, total =>
    match b with
    | .toolResult tid name content =>
      if !(isToolResultProtected b) && content.length > 0 &&
          (tid == "" || isPrunable tid) then
        if mkRat total charWindow < cfg.hardClearRatio then
          let next := hardClearBlocksGo cfg charWindow isPrunable bs total
          (b :: next.1, next.2.1, next.2.2)
        else
          let total' := total - ((content.length : Int) -
            (cfg.hardClear.placeholder.length : Int))
          let next := hardClearBlocksGo cfg charWindow isPrunable bs total'
          (CBlock.toolResult tid name cfg.hardClear.placeholder :: next.1,
           next.2.1, next.2.2 + 1)
      else
        let next := hardClearBlocksGo cfg charWindow isPrunable bs total
        (b :: next.1, next.2.1, next.2.2)
    | _ =>
      let next := hardClearBlocksGo cfg charWindow isPrunable bs total
      (b :: next.1, next.2.1, next.2.2)

/-- Hard clear over the message list, threading the running total. -/
def hardClearMsgsGo (cfg : ContextPruningSettings) (charWindow : Nat)
    (isPrunable : String → Bool) :
    List Message → Int → List Message × Int × Nat
  | [], total => ([], total, 0)
  | msg :: rest, total =>
    match msg.content with
    | .str _ =>
      let next := hardClearMsgsGo cfg charWindow isPrunable rest total
      (msg :: next.1, next.2.1, next.2.2)
    | .blocks bs =>
      let r := hardClearBlocksGo cfg charWindow isPrunable bs total
      let next := hardClearMsgsGo cfg charWindow isPrunable rest r.2.1
      ({ msg with content := .blocks r.1 } :: next.1, next.2.1, r.2.2 + next.2.2)

/-- Layer 2, `applyHardClear` in `src/context/pruning.ts`: disabled, a
ratio below `hardClearRatio`, or too few prunable characters leave the
messages untouched; otherwise clear prunable tool results in order until
the running ratio falls below the threshold. -/
def applyHardClear (msgs : List Message) (cfg : ContextPruningSettings)
    (isPrunable : String → Bool) (charWindow : Nat) : List Message × Nat :=
  if !cfg.hardClear.enabled then (msgs, 0)
  else
    let totalChars := estimateMessagesChars msgs
    if mkRat (totalChars : Int) charWindow < cfg.hardClearRatio then (msgs, 0)
    else if countPrunableToolChars msgs isPrunable < cfg.minPrunableToolChars then
      (msgs, 0)
    else
      let r := hardClearMsgsGo cfg charWindow isPrunable msgs (totalChars : Int)
      (r.1, r.2.2)

/-- Search for the `keepLastAssistants`-th assistant message counted from
the end, `findAssistantCutoffIndex` in `src/context/pruning.ts`; the
downward index loop is expressed on the reversed list (`j` positions from
the end translate to index `length - 1 - j`). -/
def findCutoffRevGo : List Message → Nat → Nat → Option Nat
  | [], _, _ => none
  | m :: rest, remaining, j =>
    if m.role = .assistant then
      if remaining = 1 then some j
      else findCutoffRevGo rest (remaining - 1) (j + 1)
    else findCutoffRevGo rest remaining (j + 1)

/-- Cutoff index protecting the last `keepLastAssistants` assistant
messages and everything after them. -/
def findAssistantCutoffIndex (msgs : List Message) (keepLastAssistants : Nat) :
    Option Nat :=
  if keepLastAssistants = 0 then some msgs.length
  else
    match findCutoffRevGo msgs.reverse keepLastAssistants 0 with
    | some j => some (msgs.length - 1 - j)
    | none => none

/-- Back-to-front packing, `sliceWithinBudget` in `src/context/pruning.ts`,
on the reversed list: take messages while they fit; the first message is
always taken (`kept.length > 0` guards the break). -/
def sliceGo (budget : Nat) : List Message → Nat → Bool → List Message
  | [], _, _ => []
  | m :: rest, used, tookAny =>
    let chars := estimateMessageChars m
    if used + chars > budget && tookAny then []
    else m :: sliceGo budget rest (used + chars) true

/-- Final-fallback packing of the most recent messages within the budget. -/
def sliceWithinBudget (msgs : List Message) (budgetChars : Nat) : List Message :=
  (sliceGo budgetChars msgs.reverse 0 false).reverse

/-- The downward loop of Layer 3 that prepends older messages while they
fit the remaining budget (`for (let i = protectedIndex - 1; ...)`),
expressed on the reversed prefix; it stops at the first message that does
not fit. -/
def addOlderGo (budgetLeft : Nat) : List Message → List Message
  | [] => []
  | m :: rest =>
    let c := estimateMessageChars m
    if c > budgetLeft then []
    else m :: addOlderGo (budgetLeft - c) rest

/-- Result record of `pruneContextMessages` (`PruneResult`). -/
structure PruneResult where
  messages : List Message
  droppedMessages : List Message
  trimmedToolResults : Nat
  hardClearedToolResults : Nat
  totalChars : Nat
  keptChars : Nat
  droppedChars : Nat
  budgetChars : Nat
deriving DecidableEq, Repr

/-- The char window `contextTokens * 4` with the `max 1` clamp of the
source. -/
def charWindowOf (contextWindowTokens : Nat) : Nat :=
  max 1 contextWindowTokens * CHARS_PER_TOKEN_ESTIMATE

/-- The history budget `⌊charWindow * maxHistoryShare⌋` with the `max 1`
clamp of the source; the product `charWindow * share` is written as
`mkRat (charWindow * share.num) share.den`, which is the same rational. -/
def budgetCharsOf (charWindow : Nat) (share : ℚ) : Nat :=
  max 1 (mkRat ((charWindow : Int) * share.num) share.den).floor.toNat

/-- Layers 1 and 2 of `pruneContextMessages`: soft trim when the ratio
exceeds `softTrimRatio`, then hard clear when the recomputed ratio exceeds
`hardClearRatio`. Returns the transformed messages and both counters. -/
def afterLayer12 (msgs : List Message) (contextWindowTokens : Nat)
    (cfg : ContextPruningSettings) : List Message × Nat × Nat :=
  let charWindow := charWindowOf contextWindowTokens
  let isPrunable := makeToolPrunablePredicate (some cfg.tools)
  let totalChars := estimateMessagesChars msgs
  let step1 :=
    if mkRat (totalChars : Int) charWindow > cfg.softTrimRatio then
      applySoftTrim msgs cfg.softTrim isPrunable
    else (msgs, 0)
  let after1 := estimateMessagesChars step1.1
  let step2 :=
    if mkRat (after1 : Int) charWindow > cfg.hardClearRatio then
      applyHardClear step1.1 cfg isPrunable charWindow
    else (step1.1, 0)
  (step2.1, step1.2, step2.2)

/-- Layer 3 of `pruneContextMessages` (message drop): keep everything when
within budget; otherwise protect the suffix from the assistant cutoff and
pack older messages while they fit, falling back to plain back-to-front
packing when the protected suffix alone exceeds the budget. The kept
messages are always a suffix of the input, so the dropped messages are the
complementary prefix (the source computes them by identity filtering). -/
def messageDropPhase (cur : List Message) (budgetChars : Nat)
    (keepLastAssistants : Nat) (trimmed cleared : Nat) : PruneResult :=
  let afterChars := estimateMessagesChars cur
  if afterChars ≤ budgetChars then
    ⟨cur, [], trimmed, cleared, afterChars, afterChars, 0, budgetChars⟩
  else
    let cutoff := findAssistantCutoffIndex cur keepLastAssistants
    let protectedIndex := cutoff.getD 0
    let protectedMsgs := cur.drop protectedIndex
    let protectedChars := estimateMessagesChars protectedMsgs
    let kept :=
      if protectedChars > budgetChars then sliceWithinBudget cur budgetChars
      else
        (addOlderGo (budgetChars - protectedChars)
          ((cur.take protectedIndex).reverse)).reverse ++ protectedMsgs
    let keptChars := estimateMessagesChars kept
    ⟨kept, cur.take (cur.length - kept.length), trimmed, cleared,
     afterChars, keptChars, afterChars - keptChars, budgetChars⟩

/-- Three-layer context pruning, `pruneContextMessages` in
`src/context/pruning.ts`, over already-resolved settings. -/
def pruneContextMessages (msgs : List Message) (contextWindowTokens : Nat)
    (cfg : ContextPruningSettings) : PruneResult :=
  let charWindow := charWindowOf contextWindowTokens
  let budgetChars := budgetCharsOf charWindow cfg.maxHistoryShare
  let l12 := afterLayer12 msgs contextWindowTokens cfg
  messageDropPhase l12.1 budgetChars cfg.keepLastAssistants l12.2.1 l12.2.2

/-- Character estimate of the final message (zero on an empty list). -/
def lastChars (l : List Message) : Nat :=
  match l.getLast? with
  | some m => estimateMessageChars m
  | none => 0

theorem estimateMessagesChars_nil : estimateMessagesChars [] = 0 := rfl

theorem estimateMessagesChars_cons (m : Message) (l : List Message) :
    estimateMessagesChars (m :: l) = estimateMessageChars m + estimateMessagesChars l := by
  simp [estimateMessagesChars]

theorem estimateMessagesChars_append (l₁ l₂ : List Message) :
    estimateMessagesChars (l₁ ++ l₂) =
      estimateMessagesChars l₁ + estimateMessagesChars l₂ := by
  simp [estimateMessagesChars]

theorem estimateMessagesChars_reverse (l : List Message) :
    estimateMessagesChars l.reverse = estimateMessagesChars l := by
  simp [estimateMessagesChars, List.map_reverse, List.sum_reverse]

/-- Messages added back by the Layer 3 downward loop fit the remaining
budget. -/
theorem addOlderGo_chars_le (l : List Message) :
    ∀ left, estimateMessagesChars (addOlderGo left l) ≤ left := by
  induction l with
  | nil => intro left; simp [addOlderGo, estimateMessagesChars_nil]
  | cons m rest ih =>
      intro left
      simp only [addOlderGo]
      split
      · simp [estimateMessagesChars_nil]
      · rename_i hfit
        rw [estimateMessagesChars_cons]
        have h1 := ih (left - estimateMessageChars m)
        omega

/-- Running-total bound of the back-to-front packing once at least one
message was taken. -/
theorem sliceGo_chars_le (budget : Nat) (l : List Message) :
    ∀ used, used + estimateMessagesChars (sliceGo budget l used true) ≤
      max budget used := by
  induction l with
  | nil => intro used; simp [sliceGo, estimateMessagesChars_nil]
  | cons m rest ih =>
      intro used
      simp only [sliceGo]
      split
      · simp [estimateMessagesChars_nil]
      · rename_i hfit
        rw [estimateMessagesChars_cons]
        have hle : used + estimateMessageChars m ≤ budget := by
          simp only [Bool.and_true, decide_eq_true_eq] at hfit
          omega
        have h1 := ih (used + estimateMessageChars m)
        have h2 : max budget (used + estimateMessageChars m) = budget :=
          Nat.max_eq_left hle
        rw [h2] at h1
        omega

/-- The fallback packing keeps at most the budget, except that the final
message is always kept even when it alone exceeds the budget. -/
theorem sliceWithinBudget_chars_le (init : List Message) (b : Message) (budget : Nat) :
    estimateMessagesChars (sliceWithinBudget (init ++ [b]) budget) ≤
      max budget (estimateMessageChars b) := by
  unfold sliceWithinBudget
  rw [estimateMessagesChars_reverse]
  rw [List.reverse_append]
  simp only [List.reverse_cons, List.reverse_nil, List.nil_append, List.cons_append]
  show estimateMessagesChars (sliceGo budget (b :: init.reverse) 0 false) ≤ _
  simp only [sliceGo, Bool.and_false]
  rw [if_neg (by simp)]
  rw [estimateMessagesChars_cons]
  have h := sliceGo_chars_le budget init.reverse (0 + estimateMessageChars b)
  omega

/-- A non-empty list splits off its last element. -/
theorem exists_concat_of_ne_nil (l : List Message) (h : l ≠ []) :
    ∃ init b, l = init ++ [b] ∧ lastChars l = estimateMessageChars b := by
  rcases List.eq_nil_or_concat l with rfl | ⟨init, b, hcb⟩
  · exact absurd rfl h
  · refine ⟨init, b, ?_, ?_⟩
    · rw [hcb, List.concat_eq_append]
    · rw [hcb]
      simp [lastChars, List.concat_eq_append, List.getLast?_concat]

/-- Layer 3 keeps at most the budget whenever the protected suffix fits. -/
theorem messageDropPhase_keptChars_le (cur : List Message) (budget keep t c : Nat)
    (hprot : estimateMessagesChars
      (cur.drop ((findAssistantCutoffIndex cur keep).getD 0)) ≤ budget) :
    (messageDropPhase cur budget keep t c).keptChars ≤ budget := by
  simp only [messageDropPhase]
  split
  · rename_i hwithin
    simpa using hwithin
  · rename_i hover
    dsimp only
    rw [if_neg (by omega)]
    rw [estimateMessagesChars_append, estimateMessagesChars_reverse]
    have h1 := addOlderGo_chars_le
      ((cur.take ((findAssistantCutoffIndex cur keep).getD 0)).reverse)
      (budget - estimateMessagesChars
        (cur.drop ((findAssistantCutoffIndex cur keep).getD 0)))
    omega

/-- Layer 3 always keeps the protected suffix when it fits the budget. -/
theorem messageDropPhase_protected_suffix (cur : List Message) (budget keep t c : Nat)
    (hprot : estimateMessagesChars
      (cur.drop ((findAssistantCutoffIndex cur keep).getD 0)) ≤ budget) :
    (cur.drop ((findAssistantCutoffIndex cur keep).getD 0)) <:+
      (messageDropPhase cur budget keep t c).messages := by
  simp only [messageDropPhase]
  split
  · exact List.drop_suffix _ _
  · rename_i hover
    dsimp only
    rw [if_neg (by omega)]
    exact List.suffix_append _ _

/-- Layer 3 never keeps more than the budget or, failing that, the final
message's own size. -/
theorem messageDropPhase_keptChars_le_max (cur : List Message) (budget keep t c : Nat) :
    (messageDropPhase cur budget keep t c).keptChars ≤ max budget (lastChars cur) := by
  simp only [messageDropPhase]
  split
  · rename_i hwithin
    exact le_trans (by simpa using hwithin) (le_max_left _ _)
  · rename_i hover
    dsimp only
    split
    · rename_i hbig
      have hne : cur ≠ [] := by
        intro hnil
        subst hnil
        simp [estimateMessagesChars_nil] at hover
      rcases exists_concat_of_ne_nil cur hne with ⟨init, b, hsplit, hlast⟩
      rw [hlast, hsplit]
      exact sliceWithinBudget_chars_le init b budget
    · rename_i hfits
      rw [estimateMessagesChars_append, estimateMessagesChars_reverse]
      have h1 := addOlderGo_chars_le
        ((cur.take ((findAssistantCutoffIndex cur keep).getD 0)).reverse)
        (budget - estimateMessagesChars
          (cur.drop ((findAssistantCutoffIndex cur keep).getD 0)))
      have h2 : budget ≤ max budget (lastChars cur) := le_max_left _ _
      omega

end Prune

/-- Claim C5 (counterexample): a single 30-character user message with a
10-token window and default settings has `totalChars = 30 > budgetChars =
20`, yet the result keeps all 30 characters: the back-to-front fallback
always retains the final message, so `keptChars ≤ budgetChars` fails. -/
theorem claim5_counterexample :
    Prune.estimateMessagesChars
        [⟨.user, .str (String.mk (List.replicate 30 'a')), 0⟩] = 30 ∧
    (Prune.pruneContextMessages
        [⟨.user, .str (String.mk (List.replicate 30 'a')), 0⟩] 10
        Prune.defaultSettings).budgetChars = 20 ∧
    (Prune.pruneContextMessages
        [⟨.user, .str (String.mk (List.replicate 30 'a')), 0⟩] 10
        Prune.defaultSettings).keptChars = 30 := by
  refine ⟨by decide, by decide, by decide⟩

/-- Claim C5 (amended): whenever the protected suffix (from the
`keepLastAssistants`-th-from-last assistant message onward, over the
messages produced by layers 1–2) fits the budget, pruning keeps at most
`budgetChars` characters and keeps the whole protected suffix; in every
case the kept characters exceed the budget at most up to the size of the
final message, which the fallback packing always retains. -/
theorem claim5_pruning_monotonicity (msgs : List Message) (ctx : Nat)
    (cfg : Prune.ContextPruningSettings)
    (hprot : Prune.estimateMessagesChars
        ((Prune.afterLayer12 msgs ctx cfg).1.drop
          ((Prune.findAssistantCutoffIndex (Prune.afterLayer12 msgs ctx cfg).1
            cfg.keepLastAssistants).getD 0)) ≤
      (Prune.pruneContextMessages msgs ctx cfg).budgetChars) :
    (Prune.pruneContextMessages msgs ctx cfg).keptChars ≤
      (Prune.pruneContextMessages msgs ctx cfg).budgetChars ∧
    ((Prune.afterLayer12 msgs ctx cfg).1.drop
        ((Prune.findAssistantCutoffIndex (Prune.afterLayer12 msgs ctx cfg).1
          cfg.keepLastAssistants).getD 0)) <:+
      (Prune.pruneContextMessages msgs ctx cfg).messages ∧
    (Prune.pruneContextMessages msgs ctx cfg).keptChars ≤
      max (Prune.pruneContextMessages msgs ctx cfg).budgetChars
        (Prune.lastChars (Prune.afterLayer12 msgs ctx cfg).1) := by
  have hbud : (Prune.pruneContextMessages msgs ctx cfg).budgetChars =
      Prune.budgetCharsOf (Prune.charWindowOf ctx) cfg.maxHistoryShare := by
    simp only [Prune.pruneContextMessages, Prune.messageDropPhase]
    split
    · rfl
    · rfl
  rw [hbud] at hprot ⊢
  refine ⟨?_, ?_, ?_⟩
  · exact Prune.messageDropPhase_keptChars_le _ _ _ _ _ hprot
  · exact Prune.messageDropPhase_protected_suffix _ _ _ _ _ hprot
  · exact Prune.messageDropPhase_keptChars_le_max _ _ _ _ _

/-- Claim C5 witness: a 30-character old user message followed by three
one-character assistant messages with a 10-token window; the protected
suffix (3 chars) fits the 20-char budget, so exactly the protected suffix
is kept (3 = keptChars ≤ 20). -/
theorem claim5_witness :
    (Prune.pruneContextMessages
        [⟨.user, .str (String.mk (List.replicate 30 'a')), 0⟩,
         ⟨.assistant, .str "x", 1⟩, ⟨.assistant, .str "y", 2⟩,
         ⟨.assistant, .str "z", 3⟩] 10 Prune.defaultSettings).keptChars ≤
      (Prune.pruneContextMessages
        [⟨.user, .str (String.mk (List.replicate 30 'a')), 0⟩,
         ⟨.assistant, .str "x", 1⟩, ⟨.assistant, .str "y", 2⟩,
         ⟨.assistant, .str "z", 3⟩] 10 Prune.defaultSettings).budgetChars :=
  (claim5_pruning_monotonicity
    [⟨.user, .str (String.mk (List.replicate 30 'a')), 0⟩,
     ⟨.assistant, .str "x", 1⟩, ⟨.assistant, .str "y", 2⟩,
     ⟨.assistant, .str "z", 3⟩] 10 Prune.defaultSettings (by decide)).1

/-- Claim C6 (code bug): the prunability predicate is declared over tool
names (`(toolName: string) => boolean`, deny/allow globs like `"exec"`),
but `softTrimToolResultBlock` passes `block.tool_use_id` to it. A
`tool_result` of the denied tool `exec` is therefore still trimmed (its id
`"toolu_1"` matches no deny pattern), and a block of an explicitly allowed
tool is NOT trimmed (its id matches no allow pattern either). -/
theorem claim6_code_bug :
    Prune.makeToolPrunablePredicate (some ⟨[], ["exec"]⟩) "exec" = false ∧
    (Prune.softTrimToolResultBlock
        (.toolResult "toolu_1" (some "exec") "abcdefghijklmnop") ⟨10, 3, 3⟩
        (Prune.makeToolPrunablePredicate (some ⟨[], ["exec"]⟩))).2 = true ∧
    Prune.makeToolPrunablePredicate (some ⟨["exec"], []⟩) "exec" = true ∧
    (Prune.softTrimToolResultBlock
        (.toolResult "toolu_1" (some "exec") "abcdefghijklmnop") ⟨10, 3, 3⟩
        (Prune.makeToolPrunablePredicate (some ⟨["exec"], []⟩))).2 = false := by
  refine ⟨by decide, by decide, by decide, by decide⟩

namespace Sess

/-- A persisted session entry, `SessionEntry` in `src/session.ts` (the
`session` header line is not an entry; it is represented implicitly by the
rewrite effect). Timestamps are epoch milliseconds (the source stores their
ISO rendering). -/
inductive SEntry where
  | message (id : String) (parentId : Option String) (timestamp : Nat) (msg : Message)
  | compaction (id : String) (parentId : Option String) (timestamp : Nat)
      (summary : String) (firstKeptEntryId : String) (tokensBefore : Nat)
deriving DecidableEq, Repr

/-- Entry id. -/
def entryId : SEntry → String
  | .message id _ _ _ => id
  | .compaction id _ _ _ _ _ => id

/-- Entry parent pointer. -/
def entryParent : SEntry → Option String
  | .message _ p _ _ => p
  | .compaction _ p _ _ _ _ => p

/-- Whether an entry is a `compaction` entry. -/
def isCompaction : SEntry → Bool
  | .compaction _ _ _ _ _ _ => true
  | .message _ _ _ _ => false

/-- The message of a `message` entry (`appendMessage` in
`buildSessionContext` pushes only these). -/
def entryMessage : SEntry → Option Message
  | .message _ _ _ m => some m
  | .compaction _ _ _ _ _ _ => none

/-- Summary of a compaction entry (unused default on message entries). -/
def compSummary : SEntry → String
  | .compaction _ _ _ s _ _ => s
  | .message _ _ _ _ => ""

/-- Timestamp accessor. -/
def entryTimestamp : SEntry → Nat
  | .message _ _ t _ => t
  | .compaction _ _ t _ _ _ => t

/-- The `firstKeptEntryId` of a compaction entry. -/
def compFirstKept : SEntry → String
  | .compaction _ _ _ _ k _ => k
  | .message _ _ _ _ => ""

/-- In-memory session state, `SessionState` in `src/session.ts` (the
`byId` map and `messageIdByRef` are derived; the header carries no data the
properties need). -/
structure SessState where
  entries : List SEntry
  leafId : Option String
  flushed : Bool
  hasAssistant : Bool
deriving DecidableEq, Repr

/-- The `byId` JS map: entries are inserted in order and a later insertion
with the same id overwrites an earlier one, so lookup finds the last
matching entry. -/
def byId (entries : List SEntry) (id : String) : Option SEntry :=
  entries.reverse.find? fun e => entryId e == id

/-- Prefix text of a compaction summary message,
`COMPACTION_SUMMARY_PREFIX` in `src/session.ts`. -/
def compactionSummaryPre : String :=
  "The conversation history before this point was compacted into the following summary:\n\n<summary>\n"

/-- Closing text of a compaction summary message,
`COMPACTION_SUMMARY_SUFFIX` in `src/session.ts`. -/
def compactionSummaryPost : String := "\n</summary>"

/-- Synthesized summary message, `createCompactionSummaryMessage` in
`src/session.ts` (timestamp already resolved to milliseconds). -/
def createCompactionSummaryMessage (summary : String) (timestamp : Nat) : Message :=
  ⟨.user, .str (compactionSummaryPre ++ summary ++ compactionSummaryPost), timestamp⟩

/-- The parent walk of `buildSessionContext` (`while (current) { path.unshift
(current); current = parentId ? byId.get(parentId) : undefined }`), with fuel
bounding the chain length (the source would not terminate on a cyclic
parent chain; on the acyclic states the session manager builds, the chain is
shorter than the entry count and the fuel is never exhausted). -/
def chainTo (entries : List SEntry) : Nat → SEntry → List SEntry
  | 0, e => [e]
  | fuel + 1, e =>
    match entryParent e with
    | none => [e]
    | some pid =>
      match byId entries pid with
      | none => [e]
      | some par => chainTo entries fuel par ++ [e]

/-- The root-to-leaf path of a state: empty when there is no leaf (the
source's early returns for empty entries / missing leaf coincide with
processing an empty path). -/
def sessionPath (st : SessState) : List SEntry :=
  match st.leafId with
  | none => []
  | some lid =>
    match byId st.entries lid with
    | none => []
    | some leaf => chainTo st.entries st.entries.length leaf

/-- The `foundFirstKept` flag loop of `buildSessionContext`: replay message
entries of the pre-compaction path from the first entry whose id is
`firstKeptEntryId` onward. -/
def keptFromFirstGo (firstKept : String) : List SEntry → Bool → List Message
  | [], _ => []
  | e :: rest, found =>
    let found' := found || entryId e == firstKept
    (if found' then (entryMessage e).toList else []) ++
      keptFromFirstGo firstKept rest found'

/-- Reconstruction of the live context from a path, the body of
`buildSessionContext` in `src/session.ts`: take the last compaction entry
on the path if any; replace everything before `firstKeptEntryId` with the
synthesized summary message, then replay the remaining entries. -/
def contextFromPath (path : List SEntry) : List Message :=
  match (path.filter isCompaction).getLast? with
  | none => path.filterMap entryMessage
  | some comp =>
    let cIdx := path.findIdx fun e => isCompaction e && entryId e == entryId comp
    createCompactionSummaryMessage (compSummary comp) (entryTimestamp comp) ::
      (keptFromFirstGo (compFirstKept comp) (path.take cIdx) false ++
       (path.drop (cIdx + 1)).filterMap entryMessage)

/-- Context reconstruction, `buildSessionContext` (the body of
`SessionManager.load` after `ensureState`). -/
def buildSessionContext (st : SessState) : List Message :=
  contextFromPath (sessionPath st)

/-- A physical write performed by `persistEntry` / `rewriteSessionFile`:
either the full rewrite (header plus all buffered entries) or the append of
one serialized entry line. -/
inductive PersistEffect where
  | rewrite (entries : List SEntry)
  | appendLine (entry : SEntry)
deriving DecidableEq, Repr

/-- Persistence decision, `SessionManager.persistEntry` in
`src/session.ts`: no write while the state has no assistant message; the
first write of an unflushed state rewrites the whole file and flips
`flushed`; later writes append one line. -/
def persistEntry (st : SessState) (entry : SEntry) : SessState × Option PersistEffect :=
  if !st.hasAssistant then (st, none)
  else if !st.flushed then ({ st with flushed := true }, some (.rewrite st.entries))
  else (st, some (.appendLine entry))

/-- Message append, `SessionManager.append` in `src/session.ts`: link a new
entry to the current leaf, update the in-memory state (including
`hasAssistant`), then persist. `newId` stands for the fresh id of
`generateId`; `ts` for the entry timestamp. -/
def sessionAppend (st : SessState) (msg : Message) (newId : String) (ts : Nat) :
    SessState × Option PersistEffect :=
  let entry := SEntry.message newId st.leafId ts msg
  let st1 : SessState :=
    { entries := st.entries ++ [entry]
      leafId := some newId
      flushed := st.flushed
      hasAssistant := st.hasAssistant || msg.role == .assistant }
  persistEntry st1 entry

/-- Compaction append, `SessionManager.appendCompaction` in
`src/session.ts` (does not touch `hasAssistant`). -/
def sessionAppendCompaction (st : SessState) (summary firstKept : String)
    (tokensBefore : Nat) (newId : String) (ts : Nat) :
    SessState × Option PersistEffect :=
  let entry := SEntry.compaction newId st.leafId ts summary firstKept tokensBefore
  let st1 : SessState :=
    { entries := st.entries ++ [entry]
      leafId := some newId
      flushed := st.flushed
      hasAssistant := st.hasAssistant }
  persistEntry st1 entry

/-- Entry construction of `buildStateFromLegacy` in `src/session.ts`: each
legacy message becomes a `message` entry parent-linked to the previous one
(`items` carries the generated ids and timestamps). -/
def legacyEntriesGo : List (Message × String × Nat) → Option String → List SEntry
  | [], _ => []
  | (m, id, ts) :: rest, parent =>
    SEntry.message id parent ts m :: legacyEntriesGo rest (some id)

/-- State built from a legacy (headerless) session file,
`buildStateFromLegacy` in `src/session.ts`: `flushed = false`. -/
def buildStateFromLegacy (items : List (Message × String × Nat)) : SessState :=
  let entries := legacyEntriesGo items none
  { entries := entries
    leafId := (entries.getLast?).map entryId
    flushed := false
    hasAssistant := items.any fun it => it.1.role == .assistant }

/-- The legacy branch of `SessionManager.ensureState` in `src/session.ts`:
a non-empty legacy state is migrated by one full rewrite and marked
flushed. -/
def migrateLegacy (items : List (Message × String × Nat)) :
    SessState × Option PersistEffect :=
  let st := buildStateFromLegacy items
  if st.hasAssistant || !st.entries.isEmpty then
    ({ st with flushed := true }, some (.rewrite st.entries))
  else (st, none)

/-- With the flag already set, the replay loop keeps every message entry. -/
theorem keptFromFirstGo_true (fk : String) (l : List SEntry) :
    keptFromFirstGo fk l true = l.filterMap entryMessage := by
  induction l with
  | nil => rfl
  | cons e rest ih =>
      simp only [keptFromFirstGo, Bool.true_or, if_pos rfl, ih]
      cases he : entryMessage e <;> simp [he, List.filterMap_cons]

/-- The flag loop equals dropping entries until `firstKeptEntryId` and
replaying the rest. -/
theorem keptFromFirstGo_false_eq (fk : String) (l : List SEntry) :
    keptFromFirstGo fk l false =
      (l.dropWhile fun e => !(entryId e == fk)).filterMap entryMessage := by
  induction l with
  | nil => rfl
  | cons e rest ih =>
      cases hq : (entryId e == fk) with
      | true =>
          simp only [keptFromFirstGo, hq, Bool.false_or, if_pos rfl,
            keptFromFirstGo_true, List.dropWhile_cons, Bool.not_true]
          cases he : entryMessage e <;> simp [he, List.filterMap_cons]
      | false =>
          simp only [keptFromFirstGo, hq, Bool.false_or, List.dropWhile_cons,
            Bool.not_false, ih]
          simp

/-- Index of the first hit when nothing before it matches. -/
theorem findIdx_append_first (p : SEntry → Bool) (pre : List SEntry)
    (comp : SEntry) (post : List SEntry)
    (hpre : ∀ e ∈ pre, p e = false) (hcomp : p comp = true) :
    (pre ++ comp :: post).findIdx p = pre.length := by
  induction pre with
  | nil => simp [List.findIdx_cons, hcomp]
  | cons a rest ih =>
      have ha := hpre a (List.mem_cons_self _ _)
      simp only [List.cons_append, List.findIdx_cons, ha, cond_false]
      rw [ih fun e he => hpre e (List.mem_cons_of_mem _ he)]
      rfl

end Sess

/-- Claim C7: `load` replays the parent chain from the leaf to the root in
order; when a compaction entry lies on the path (the last such entry when
several do), the result is its synthesized summary message, then the chain
entries from the first occurrence of `firstKeptEntryId` up to the
compaction entry, then the entries after it — every entry strictly before
`firstKeptEntryId` is omitted. -/
theorem claim7_session_load (st : Sess.SessState) :
    ((Sess.sessionPath st).filter Sess.isCompaction = [] →
      Sess.buildSessionContext st =
        (Sess.sessionPath st).filterMap Sess.entryMessage) ∧
    (∀ (pre post : List Sess.SEntry) (cid : String) (cpid : Option String)
        (cts : Nat) (summary firstKept : String) (tokens : Nat),
      Sess.sessionPath st =
        pre ++ Sess.SEntry.compaction cid cpid cts summary firstKept tokens :: post →
      (∀ e ∈ pre, Sess.isCompaction e = false ∨ Sess.entryId e ≠ cid) →
      post.filter Sess.isCompaction = [] →
      Sess.buildSessionContext st =
        Sess.createCompactionSummaryMessage summary cts ::
          ((pre.dropWhile fun e => !(Sess.entryId e == firstKept)).filterMap
            Sess.entryMessage ++
           post.filterMap Sess.entryMessage)) := by
  constructor
  · intro h
    simp [Sess.buildSessionContext, Sess.contextFromPath, h]
  · intro pre post cid cpid cts summary firstKept tokens hpath hpre hpost
    have hfilter : ((Sess.sessionPath st).filter Sess.isCompaction).getLast? =
        some (Sess.SEntry.compaction cid cpid cts summary firstKept tokens) := by
      rw [hpath, List.filter_append, List.filter_cons]
      simp only [Sess.isCompaction, if_pos rfl, hpost, if_true]
      rw [List.getLast?_concat]
    have hidx : ((Sess.sessionPath st).findIdx fun e =>
        Sess.isCompaction e && Sess.entryId e ==
          Sess.entryId (Sess.SEntry.compaction cid cpid cts summary firstKept tokens)) =
        pre.length := by
      rw [hpath]
      apply Sess.findIdx_append_first
      · intro e he
        rcases hpre e he with hc | hid
        · simp [hc]
        · simp only [Sess.entryId, Bool.and_eq_false_iff]
          right
          simpa using hid
      · simp [Sess.isCompaction, Sess.entryId]
    unfold Sess.buildSessionContext Sess.contextFromPath
    rw [hfilter]
    dsimp only
    rw [hidx, hpath]
    have htake : (pre ++ Sess.SEntry.compaction cid cpid cts summary firstKept tokens
        :: post).take pre.length = pre := List.take_left _ _
    have hdrop : (pre ++ Sess.SEntry.compaction cid cpid cts summary firstKept tokens
        :: post).drop (pre.length + 1) = post := by
      have : pre ++ Sess.SEntry.compaction cid cpid cts summary firstKept tokens
          :: post = (pre ++ [Sess.SEntry.compaction cid cpid cts summary firstKept
            tokens]) ++ post := by simp
      rw [this]
      have hlen : (pre ++ [Sess.SEntry.compaction cid cpid cts summary firstKept
          tokens]).length = pre.length + 1 := by simp
      rw [← hlen]
      exact List.drop_left _ _
    rw [htake, hdrop, Sess.keptFromFirstGo_false_eq]
    rfl

/-- Claim C7 witness: a four-entry chain `user → assistant → compaction
(firstKept = the assistant entry) → user`; the reconstruction is the
summary message, the kept assistant message, and the post-compaction user
message. -/
theorem claim7_witness :
    Sess.buildSessionContext
        ⟨[Sess.SEntry.message "a1" none 1 ⟨.user, .str "hello", 1⟩,
          Sess.SEntry.message "a2" (some "a1") 2 ⟨.assistant, .str "hi", 2⟩,
          Sess.SEntry.compaction "c1" (some "a2") 3 "SUM" "a2" 100,
          Sess.SEntry.message "a3" (some "c1") 4 ⟨.user, .str "next", 4⟩],
         some "a3", true, true⟩ =
      [Sess.createCompactionSummaryMessage "SUM" 3,
       ⟨.assistant, .str "hi", 2⟩, ⟨.user, .str "next", 4⟩] := by
  have h := (claim7_session_load
    ⟨[Sess.SEntry.message "a1" none 1 ⟨.user, .str "hello", 1⟩,
      Sess.SEntry.message "a2" (some "a1") 2 ⟨.assistant, .str "hi", 2⟩,
      Sess.SEntry.compaction "c1" (some "a2") 3 "SUM" "a2" 100,
      Sess.SEntry.message "a3" (some "c1") 4 ⟨.user, .str "next", 4⟩],
     some "a3", true, true⟩).2
    [Sess.SEntry.message "a1" none 1 ⟨.user, .str "hello", 1⟩,
     Sess.SEntry.message "a2" (some "a1") 2 ⟨.assistant, .str "hi", 2⟩]
    [Sess.SEntry.message "a3" (some "c1") 4 ⟨.user, .str "next", 4⟩]
    "c1" (some "a2") 3 "SUM" "a2" 100 (by decide) (by decide) (by decide)
  rw [h]
  rfl

/-- Claim C10 (counterexample): a legacy (headerless) file holding one user
message is migrated by `ensureState` with `flushed := true` while
`hasAssistant` is still false — already a write without any assistant — and
the first persist after an assistant message then appends a single line
instead of rewriting the file. -/
theorem claim10_counterexample :
    (Sess.migrateLegacy [(⟨.user, .str "a", 1⟩, "i1", 1)]).1.hasAssistant = false ∧
    (Sess.migrateLegacy [(⟨.user, .str "a", 1⟩, "i1", 1)]).2 =
      some (.rewrite [Sess.SEntry.message "i1" none 1 ⟨.user, .str "a", 1⟩]) ∧
    (Sess.sessionAppend
        (Sess.sessionAppend (Sess.migrateLegacy [(⟨.user, .str "a", 1⟩, "i1", 1)]).1
          ⟨.user, .str "b", 2⟩ "i2" 2).1
        ⟨.assistant, .str "c", 3⟩ "i3" 3).2 =
      some (.appendLine (Sess.SEntry.message "i3" (some "i2") 3
        ⟨.assistant, .str "c", 3⟩)) := by
  refine ⟨by decide, by decide, by decide⟩

/-- Claim C10 (amended): while the in-memory state holds no assistant
message, `append` of a user message and `appendCompaction` update only the
in-memory state and emit no write effect; once an assistant message is
present, a not-yet-flushed state is persisted by one full rewrite (header
plus all buffered entries) that flips `flushed`, and every persist of a
flushed state appends a single entry line. (States loaded from an existing
file — including migrated legacy files — start with `flushed = true`, so
their first persist is an append, not a rewrite.) -/
theorem claim10_persist_effects :
    (∀ (st : Sess.SessState) (msg : Message) (id : String) (ts : Nat),
      msg.role = .user → st.hasAssistant = false →
      Sess.sessionAppend st msg id ts =
        ({ entries := st.entries ++ [Sess.SEntry.message id st.leafId ts msg]
           leafId := some id
           flushed := st.flushed
           hasAssistant := false }, none)) ∧
    (∀ (st : Sess.SessState) (summary firstKept : String) (tokens : Nat)
        (id : String) (ts : Nat),
      st.hasAssistant = false →
      (Sess.sessionAppendCompaction st summary firstKept tokens id ts).2 = none) ∧
    (∀ (st : Sess.SessState) (msg : Message) (id : String) (ts : Nat),
      (st.hasAssistant || msg.role == .assistant) = true → st.flushed = false →
      (Sess.sessionAppend st msg id ts).2 =
        some (.rewrite (st.entries ++ [Sess.SEntry.message id st.leafId ts msg])) ∧
      (Sess.sessionAppend st msg id ts).1.flushed = true) ∧
    (∀ (st : Sess.SessState) (msg : Message) (id : String) (ts : Nat),
      (st.hasAssistant || msg.role == .assistant) = true → st.flushed = true →
      (Sess.sessionAppend st msg id ts).2 =
        some (.appendLine (Sess.SEntry.message id st.leafId ts msg))) := by
  refine ⟨?_, ?_, ?_, ?_⟩
  · intro st msg id ts hrole hassist
    simp [Sess.sessionAppend, Sess.persistEntry, hrole, hassist]
  · intro st summary firstKept tokens id ts hassist
    simp [Sess.sessionAppendCompaction, Sess.persistEntry, hassist]
  · intro st msg id ts hassist hflush
    refine ⟨?_, ?_⟩ <;> simp [Sess.sessionAppend, Sess.persistEntry, hassist, hflush]
  · intro st msg id ts hassist hflush
    simp [Sess.sessionAppend, Sess.persistEntry, hassist, hflush]

/-- Claim C10 witness: the first persisted append on a fresh session (an
assistant message) rewrites the whole file. -/
theorem claim10_witness :
    (Sess.sessionAppend ⟨[], none, false, false⟩ ⟨.assistant, .str "hi", 1⟩ "e1" 1).2 =
      some (.rewrite [Sess.SEntry.message "e1" none 1 ⟨.assistant, .str "hi", 1⟩]) :=
  (claim10_persist_effects.2.2.1 ⟨[], none, false, false⟩ ⟨.assistant, .str "hi", 1⟩
    "e1" 1 (by decide) rfl).1

namespace Lock

/-- Parsed lock-file payload, `LockPayload` in `src/session-write-lock.ts`;
`createdAt` is the `Date.parse` of the stored ISO string, `none` when it is
unparsable (`NaN`). -/
structure LockPayload where
  pid : Int
  createdAt : Option Int
deriving DecidableEq, Repr

/-- What one `open(lockPath, "wx")` attempt observes: the lock file is
absent (the open succeeds), or it exists with the payload
`readLockPayload` returns (`none` when unreadable or invalid). -/
inductive LockObs where
  | free
  | held (payload : Option LockPayload)
deriving DecidableEq, Repr

/-- The `isAlive` probe of `src/session-write-lock.ts`: non-positive pids
are dead; otherwise the `process.kill(pid, 0)` probe is an oracle. -/
def isAlive (aliveOracle : Int → Bool) (pid : Int) : Bool :=
  if pid ≤ 0 then false else aliveOracle pid

/-- The staleness test (`const stale = !Number.isFinite(createdAt) ||
Date.now() - createdAt > staleMs`): missing or unparsable payloads are
stale, as is a creation time older than `staleMs`. -/
def lockStale (now staleMs : Int) (payload : Option LockPayload) : Bool :=
  match payload with
  | none => true
  | some p =>
    match p.createdAt with
    | none => true
    | some t => now - t > staleMs

/-- The owner-liveness test (`payload?.pid ? isAlive(payload.pid) :
false`); a zero pid is falsy. -/
def lockOwnerAlive (aliveOracle : Int → Bool) (payload : Option LockPayload) : Bool :=
  match payload with
  | none => false
  | some p => if p.pid == 0 then false else isAlive aliveOracle p.pid

/-- The action taken by one iteration of the acquisition loop. -/
inductive LockStep where
  | acquired
  | removedStale
  | waited (delayMs : Nat)
deriving DecidableEq, Repr

/-- The backoff of `src/session-write-lock.ts` (`Math.min(1000, 50 *
attempt)`): linear in the attempt count, capped at one second. -/
def lockAttemptDelay (attempt : Nat) : Nat := min 1000 (50 * attempt)

/-- One iteration body of `acquireSessionWriteLock`: an absent lock file is
acquired; a held lock that is stale or whose owner is dead is forcibly
removed; otherwise the writer sleeps for the capped backoff delay. -/
def lockAttemptStep (aliveOracle : Int → Bool) (now staleMs : Int)
    (obs : LockObs) (attempt : Nat) : LockStep :=
  match obs with
  | .free => .acquired
  | .held payload =>
    if lockStale now staleMs payload || !(lockOwnerAlive aliveOracle payload) then
      .removedStale
    else .waited (lockAttemptDelay attempt)

/-- Error text of the timeout throw (the source interpolates the session
file path after it). -/
def lockTimeoutMsg : String := "获取会话写锁超时"

/-- Default acquisition timeout (10 s). -/
def defaultTimeoutMs : Int := 10000

/-- Default staleness threshold (30 min). -/
def defaultStaleMs : Int := 30 * 60 * 1000

/-- The `while (Date.now() - startedAt < timeoutMs)` loop of
`acquireSessionWriteLock`: `env k` is the lock-file observation and
`clock k` the `Date.now()` of iteration `k`; `attempt` counts attempts so
far. `fuel` bounds the iterations modelled (`none` when exhausted; the
source loops on — each slept iteration advances the clock, stale removals
may in principle repeat). On success, returns the number of attempts
made. -/
def acquireLoop (aliveOracle : Int → Bool) (env : Nat → LockObs) (clock : Nat → Int)
    (startedAt timeoutMs staleMs : Int) :
    Nat → Nat → Nat → Option (Except String Nat)
  | 0, _, _ => none
  | fuel + 1, k, attempt =>
    if clock k - startedAt < timeoutMs then
      let attempt' := attempt + 1
      match lockAttemptStep aliveOracle (clock k) staleMs (env k) attempt' with
      | .acquired => some (.ok attempt')
      | .removedStale =>
          acquireLoop aliveOracle env clock startedAt timeoutMs staleMs fuel (k + 1) attempt'
      | .waited _ =>
          acquireLoop aliveOracle env clock startedAt timeoutMs staleMs fuel (k + 1) attempt'
    else some (.error lockTimeoutMsg)

end Lock

/-- Claim C8 (counterexample): the lock acquisition backoff is not
exponential — no base and ratio `r > 1` reproduce the delays
`min(1000, 50·attempt)`, whose first values are 50, 100, 150. -/
theorem claim8_counterexample :
    ¬ ∃ (b r : ℚ), 1 < r ∧ ∀ n : Nat, 1 ≤ n →
      ((Lock.lockAttemptDelay n : ℚ)) = min 1000 (b * r ^ (n - 1)) := by
  rintro ⟨b, r, hr, h⟩
  have h1 := h 1 (by omega)
  have h2 := h 2 (by omega)
  have h3 := h 3 (by omega)
  have e1 : ((Lock.lockAttemptDelay 1 : Nat) : ℚ) = 50 := by
    norm_num [Lock.lockAttemptDelay]
  have e2 : ((Lock.lockAttemptDelay 2 : Nat) : ℚ) = 100 := by
    norm_num [Lock.lockAttemptDelay]
  have e3 : ((Lock.lockAttemptDelay 3 : Nat) : ℚ) = 150 := by
    norm_num [Lock.lockAttemptDelay]
  rw [e1] at h1
  rw [e2] at h2
  rw [e3] at h3
  norm_num at h1 h2 h3
  have hb : b = 50 := by
    rcases le_total b 1000 with hble | hble
    · rw [min_eq_right hble] at h1
      linarith
    · rw [min_eq_left hble] at h1
      linarith
  subst hb
  have hrr : r = 2 := by
    rcases le_total (50 * r) 1000 with hle | hle
    · rw [min_eq_right hle] at h2
      linarith
    · rw [min_eq_left hle] at h2
      linarith
  subst hrr
  norm_num at h3

/-- Claim C8 (amended): before every physical write the writer creates
`<session-file>.lock` exclusively; a held lock that is stale (createdAt
missing, unparsable, or older than `staleMs`, 30 min by default) or whose
owner pid is no longer alive is forcibly removed; otherwise the writer
waits with a LINEAR backoff of `50 ms × attempt`, capped at 1 s; once the
elapsed time reaches `timeoutMs` (10 s by default) the acquisition fails
with the timeout error, and it fails only then. -/
theorem claim8_write_lock :
    (∀ (oracle : Int → Bool) (now staleMs : Int) (payload : Option Lock.LockPayload)
        (attempt : Nat),
      Lock.lockAttemptStep oracle now staleMs (.held payload) attempt =
          .removedStale ↔
        (Lock.lockStale now staleMs payload = true ∨
          Lock.lockOwnerAlive oracle payload = false)) ∧
    (∀ (oracle : Int → Bool) (now staleMs : Int) (payload : Option Lock.LockPayload)
        (attempt : Nat),
      Lock.lockStale now staleMs payload = false →
      Lock.lockOwnerAlive oracle payload = true →
      Lock.lockAttemptStep oracle now staleMs (.held payload) attempt =
        .waited (min 1000 (50 * attempt))) ∧
    (∀ (oracle : Int → Bool) (env : Nat → Lock.LockObs) (clock : Nat → Int)
        (startedAt timeoutMs staleMs : Int) (fuel k attempt : Nat),
      timeoutMs ≤ clock k - startedAt →
      Lock.acquireLoop oracle env clock startedAt timeoutMs staleMs
          (fuel + 1) k attempt = some (.error Lock.lockTimeoutMsg)) ∧
    (∀ (oracle : Int → Bool) (env : Nat → Lock.LockObs) (clock : Nat → Int)
        (startedAt timeoutMs staleMs : Int) (fuel k attempt : Nat) (e : String),
      Lock.acquireLoop oracle env clock startedAt timeoutMs staleMs
          fuel k attempt = some (.error e) →
      e = Lock.lockTimeoutMsg ∧ ∃ j, timeoutMs ≤ clock j - startedAt) ∧
    Lock.defaultStaleMs = 30 * 60 * 1000 ∧ Lock.defaultTimeoutMs = 10000 := by
  refine ⟨?_, ?_, ?_, ?_, rfl, rfl⟩
  · intro oracle now staleMs payload attempt
    have hstep : Lock.lockAttemptStep oracle now staleMs (.held payload) attempt =
        (if Lock.lockStale now staleMs payload ||
            !(Lock.lockOwnerAlive oracle payload)
          then .removedStale else .waited (Lock.lockAttemptDelay attempt)) := rfl
    rw [hstep]
    by_cases hcond : (Lock.lockStale now staleMs payload ||
        !(Lock.lockOwnerAlive oracle payload)) = true
    · rw [if_pos hcond]
      constructor
      · intro _
        simp only [Bool.or_eq_true] at hcond
        rcases hcond with hs | ha
        · exact Or.inl hs
        · exact Or.inr (by simpa using ha)
      · intro _
        rfl
    · rw [if_neg hcond]
      constructor
      · intro habs
        exact absurd habs (by simp)
      · intro hor
        exfalso
        apply hcond
        rcases hor with hs | ha
        · simp [hs]
        · simp [ha]
  · intro oracle now staleMs payload attempt hstale halive
    simp [Lock.lockAttemptStep, hstale, halive, Lock.lockAttemptDelay]
  · intro oracle env clock startedAt timeoutMs staleMs fuel k attempt htime
    simp only [Lock.acquireLoop]
    rw [if_neg (by omega)]
  · intro oracle env clock startedAt timeoutMs staleMs fuel k attempt e
    induction fuel generalizing k attempt with
    | zero => intro h; simp [Lock.acquireLoop] at h
    | succ n ih =>
        intro h
        simp only [Lock.acquireLoop] at h
        split at h
        · split at h
          · simp at h
          · exact ih _ _ h
          · exact ih _ _ h
        · rename_i htime
          simp only [Option.some.injEq, Except.error.injEq] at h
          exact ⟨h.symm, k, by omega⟩

/-- Claim C8 witness: a fresh, live lock held by pid 42 makes the third
attempt wait 150 ms (the linear backoff). -/
theorem claim8_witness :
    Lock.lockAttemptStep (fun _ => true) 0 Lock.defaultStaleMs
        (.held (some ⟨42, some 0⟩)) 3 = .waited 150 := by
  have h := claim8_write_lock.2.1 (fun _ => true) 0 Lock.defaultStaleMs
    (some ⟨42, some 0⟩) 3 (by decide) (by decide)
  rw [h]
  decide

namespace Guard

/-- Semantics of `n` stacked guard wrappers around the raw
`SessionManager.append`: layer `i` owns its own pending map (`ps` lists
them outermost first) and its `originalAppend` is the next layer, bottoming
out at the raw append to the log. A hypothetical double installation would
run the guard logic twice with two pending maps; the `n` index counts the
layers (always `ps.length`). -/
def appendLayersN (now : Nat) : Nat → List Pending → List Message → Message →
    List Pending × List Message
  | 0, _, log, msg => ([], log ++ [msg])
  | n + 1, ps, log, msg =>
    let p := ps.headD []
    let rest := ps.tail
    let rids := extractToolResultIds msg
    if rids ≠ [] then
      let inner := appendLayersN now n rest log msg
      (rids.foldl pendingDelete p :: inner.1, inner.2)
    else
      let tus := extractToolUsesFromAssistant msg
      let afterFlush :=
        if 0 < p.length then
          appendLayersN now n rest log
            ⟨.user, .blocks (p.map fun kv => makeMissingToolResult kv.1 (some kv.2)),
             now⟩
        else (rest, log)
      let inner := appendLayersN now n afterFlush.1 afterFlush.2 msg
      (tus.foldl (fun q kv => pendingSet q kv.1 kv.2)
        (if 0 < p.length then [] else p) :: inner.1, inner.2)

/-- The session manager as seen by `installSessionToolResultGuard`: the
`__toolResultGuardInstalled` flag, the stack of guard layers wrapped around
`append` (one per effective installation), and the persisted log. -/
structure SMState where
  installed : Bool
  layers : List Pending
  log : List Message
deriving DecidableEq, Repr

/-- Guard installation, `installSessionToolResultGuard` in
`src/session-tool-result-guard.ts`: if the flag is set, return the memoized
guard and change nothing; otherwise wrap `append` in one new guard layer
with a fresh pending map and set the flag. -/
def installSessionToolResultGuard (sm : SMState) : SMState :=
  if sm.installed then sm
  else { installed := true, layers := [] :: sm.layers, log := sm.log }

/-- `append` on the (possibly multiply-wrapped) session manager. -/
def smAppend (sm : SMState) (msg : Message) (now : Nat) : SMState :=
  let r := appendLayersN now sm.layers.length sm.layers sm.log msg
  { sm with layers := r.1, log := r.2 }

/-- Installing twice equals installing once. -/
theorem install_install (sm : SMState) :
    installSessionToolResultGuard (installSessionToolResultGuard sm) =
      installSessionToolResultGuard sm := by
  by_cases h : sm.installed = true
  · simp [installSessionToolResultGuard, h]
  · simp [installSessionToolResultGuard, h]

/-- One guard layer implements exactly the guarded append of the direct
model (`guardAppend`). -/
theorem appendLayersN_one (p : Pending) (log : List Message) (msg : Message)
    (now : Nat) :
    appendLayersN now 1 [p] log msg =
      ([(guardAppend ⟨p, log⟩ msg now).pending], (guardAppend ⟨p, log⟩ msg now).log) := by
  by_cases hr : extractToolResultIds msg = []
  · rw [guardAppend_no_results ⟨p, log⟩ msg now hr]
    by_cases hp : p = []
    · subst hp
      simp [appendLayersN, hr, flushPendingToolResults]
    · have hlen : 0 < p.length := List.length_pos.mpr hp
      have hflush : flushPendingToolResults ⟨p, log⟩ now =
          ⟨[], log ++ [⟨.user, .blocks (p.map fun kv =>
            makeMissingToolResult kv.1 (some kv.2)), now⟩]⟩ := by
        unfold flushPendingToolResults
        rw [if_neg (by simp [hp])]
      simp [appendLayersN, hr, hlen, hflush]
  · have hform : guardAppend ⟨p, log⟩ msg now =
        { pending := (extractToolResultIds msg).foldl pendingDelete p
          log := log ++ [msg] } := by
      simp only [guardAppend]
      rw [if_pos hr]
    rw [hform]
    simp [appendLayersN, hr]

end Guard

/-- Claim C9: guard installation is idempotent. Installing the guard `N ≥ 1`
times on a session manager leaves exactly the state (one guard layer, flag
set) that a single installation produces, so every subsequent sequence of
appends behaves identically; the append method is wrapped only on the first
installation. -/
theorem claim9_idempotent_guard (sm : Guard.SMState) (n : Nat) (h : 1 ≤ n) :
    Guard.installSessionToolResultGuard^[n] sm =
      Guard.installSessionToolResultGuard sm ∧
    ∀ (ops : List (Message × Nat)),
      ops.foldl (fun s op => Guard.smAppend s op.1 op.2)
          (Guard.installSessionToolResultGuard^[n] sm) =
        ops.foldl (fun s op => Guard.smAppend s op.1 op.2)
          (Guard.installSessionToolResultGuard sm) := by
  have hmain : ∀ m, Guard.installSessionToolResultGuard^[m + 1] sm =
      Guard.installSessionToolResultGuard sm := by
    intro m
    induction m with
    | zero => rfl
    | succ k ih =>
        rw [Function.iterate_succ_apply', ih, Guard.install_install]
  obtain ⟨m, rfl⟩ : ∃ m, n = m + 1 := ⟨n - 1, by omega⟩
  exact ⟨hmain m, fun ops => by rw [hmain m]⟩

/-- Claim C9 witness: three installations on a fresh manager equal one. -/
theorem claim9_witness :
    Guard.installSessionToolResultGuard^[3] ⟨false, [], []⟩ =
      Guard.installSessionToolResultGuard ⟨false, [], []⟩ :=
  (claim9_idempotent_guard ⟨false, [], []⟩ 3 (by decide)).1

end OCMini
